import Mathlib

/-!
Shallow embedding of the core subsystems of the angstros kernel
(UEFI stub, allocators, ELF loader, syscall dispatcher), with theorems
settling the specification claims about them.

Machine integers are modelled as `Nat`; the hypotheses of each theorem keep
the inputs inside the ranges where the `u64` arithmetic of the source does
not wrap or panic.
-/

namespace Angstros

/-! ## Common helpers -/

/-- `VirtAddr::align_up` / `PhysAddr::align_up` for a power-of-two alignment:
round `addr` up to the next multiple of `align`. -/
def alignUp (addr align : Nat) : Nat :=
  if addr % align = 0 then addr else addr + (align - addr % align)

/-- Inclusive range of naturals, as used by `Page::range_inclusive` and
`PhysFrame::range_inclusive` (empty when the end lies before the start). -/
def rangeIncl (a b : Nat) : List Nat :=
  if b < a then [] else List.range' a (b - a + 1)

/-- `core::alloc::Layout`, reduced to its two fields. -/
structure Lyt where
  size : Nat
  align : Nat
deriving DecidableEq, Repr

/-! ## Offset mapping constants (`common/src/boot.rs`, `mod offset`) -/

/-- `offset::PAGE_TABLE_INDEX`. -/
def PAGE_TABLE_INDEX : Nat := 1

/-- `offset::USIZE`: the virtual offset at which physical memory is mapped,
`PAGE_TABLE_INDEX << 39`. -/
def offsetUsize : Nat := PAGE_TABLE_INDEX <<< 39

/-- `VirtAddr::new_truncate`: keep the low 48 bits and sign-extend bit 47,
as a 64-bit value. -/
def newTruncate (a : Nat) : Nat :=
  let low := a % 2 ^ 48
  if 2 ^ 47 ≤ low then low + (2 ^ 64 - 2 ^ 48) else low

/-! ## Kernel heap constants (`kernel/src/allocator.rs`) -/

/-- `HEAP_START = VirtAddr::new_truncate(0o1_000_000_0000)`. -/
def HEAP_START : Nat := newTruncate 0o10000000000

/-- `HEAP_SIZE = 0o1_000_0000`. -/
def HEAP_SIZE : Nat := 0o10000000

/-! ## Bump allocator (`kernel/src/allocator/bump.rs`)

The four `AtomicU64` fields become plain naturals; the kernel is
single-threaded outside interrupt handlers, so the `fetch_update` and
`compare_exchange` loops always succeed and collapse to plain updates. -/

/-- The four fields of `BumpAllocator`. -/
structure BumpState where
  start : Nat
  next : Nat
  heapEnd : Nat
  count : Nat
deriving DecidableEq, Repr

/-- `BumpAllocator::new()`. -/
def bump_new : BumpState := ⟨0, 0, 0, 0⟩

/-- `BumpAllocator::init(heap_start, heap_size)` (the `assert_eq!(count, 0)`
holds for every state this development applies it to). -/
def bump_init (heapStart heapSize : Nat) : BumpState :=
  { start := heapStart, next := heapStart, heapEnd := heapStart + heapSize, count := 0 }

/-- `BumpAllocator::count_decrease`: decrement `count`; on the transition
from 1 to 0 reset `next` to `start` (the sequential view of the
compare-exchange, which cannot lose a race here). -/
def count_decrease (s : BumpState) : BumpState :=
  if s.count = 1 then { s with count := s.count - 1, next := s.start }
  else { s with count := s.count - 1 }

/-- `BumpAllocator::allocate(layout)`: returns the address handed out (or
`none`) together with the state after the call. -/
def bump_allocate (l : Lyt) (s : BumpState) : Option Nat × BumpState :=
  if s.start = 0 then (none, s)
  else
    let s1 : BumpState := { s with count := s.count + 1 }
    let aligned := alignUp s1.next l.align
    let endAddr := aligned + l.size
    if endAddr < s1.heapEnd then (some aligned, { s1 with next := endAddr })
    else (none, count_decrease s1)

/-- `BumpAllocator::deallocate`. -/
def bump_deallocate (s : BumpState) : BumpState :=
  count_decrease s

/-- Run a sequence of allocations, requiring each to succeed; returns the
final state and the addresses handed out. -/
def bump_alloc_list : List Lyt → BumpState → Option (BumpState × List Nat)
  | [], s => some (s, [])
  | l :: ls, s =>
    match bump_allocate l s with
    | (some a, s1) => (bump_alloc_list ls s1).map fun r => (r.1, a :: r.2)
    | (none, _) => none

/-- Run `n` deallocations. -/
def bump_dealloc_n : Nat → BumpState → BumpState
  | 0, s => s
  | n + 1, s => bump_dealloc_n n (bump_deallocate s)

/-! ## User frame allocator (`kernel/src/allocator/user_frame.rs`)

Frames are identified by their frame number.  The `Vec` of
`PhysFrameRangeInclusive` becomes a list of inclusive `(start, end)` pairs
whose head is the `Vec`'s last element (the only end the source touches);
the backing allocator becomes a list of frames handed out front-first. -/

/-- `UserFrameAllocator`: `free` holds the deallocated ranges with the most
recently stored range at the head; `backing` is the backing allocator. -/
structure UFA where
  backing : List Nat
  free : List (Nat × Nat)
deriving DecidableEq, Repr

/-- `UserFrameAllocator::push(frame)`. -/
def ufa_push (f : Nat) (a : UFA) : UFA :=
  match a.free with
  | (s, e) :: rest =>
    if f - 1 = e then { a with free := (s, f) :: rest }
    else if f + 1 = s then { a with free := (f, e) :: rest }
    else { a with free := (f, f) :: (s, e) :: rest }
  | [] => { a with free := [(f, f)] }

/-- `UserFrameAllocator::pop()`: take the tail frame of the last range,
dropping the range once `start > end` (its `is_empty`). -/
def ufa_pop (a : UFA) : Option (Nat × UFA) :=
  match a.free with
  | (s, e) :: rest =>
    if s > e - 1 then some (e, { a with free := rest })
    else some (e, { a with free := (s, e - 1) :: rest })
  | [] => none

/-- `UserFrameAllocator::allocate_frame`: `pop().or_else(|| backing.allocate_frame())`. -/
def ufa_allocate_frame (a : UFA) : Option Nat × UFA :=
  match ufa_pop a with
  | some (f, a1) => (some f, a1)
  | none =>
    match a.backing with
    | b :: rest => (some b, { a with backing := rest })
    | [] => (none, a)

/-- `UserFrameAllocator::deallocate_frame`. -/
def ufa_deallocate_frame (f : Nat) (a : UFA) : UFA :=
  ufa_push f a

/-! ## Free-list heap allocator (`kernel/src/allocator/linked_list.rs`)

The in-place linked list of free `Node`s becomes the list of the holes it
describes, in list order; the sentinel head node (which lives inside the
`LinkedListAllocator` struct, with size 0) is kept as its address
`sentinelAddr`. -/

/-- `Node::SIZE = mem::size_of::<Node>()`: a `u64` plus a niche-optimized
`Option<&'static mut Node>`. -/
def NodeSize : Nat := 16

/-- `Node::ALIGN = mem::align_of::<Node>()`. -/
def NodeAlign : Nat := 8

/-- `NodeLayout`. -/
structure NLayout where
  size : Nat
  align : Nat
deriving DecidableEq, Repr

/-- `NodeLayout::from(Layout)`: `align_to(Node::ALIGN)`, `pad_to_align()`,
then take at least `Node::SIZE` bytes. -/
def toNodeLayout (l : Lyt) : NLayout :=
  let a := max l.align NodeAlign
  { size := max (alignUp l.size a) NodeSize, align := a }

/-- A free block (`Hole { addr, size }`). -/
structure Hole where
  addr : Nat
  size : Nat
deriving DecidableEq, Repr

/-- `Hole::fit_alloc(layout)`: where the layout would sit inside the hole,
plus the up-to-two remnant holes before and after it. -/
def fit_alloc (h : Hole) (l : NLayout) : Option (Option Hole × Nat × Option Hole) :=
  let start := alignUp h.addr l.align
  let stop := start + l.size
  if h.addr + h.size < stop then none
  else
    let excessBefore := start - h.addr
    if excessBefore ≠ 0 ∧ excessBefore < NodeSize then none
    else
      let excessAfter := h.addr + h.size - stop
      if excessAfter ≠ 0 ∧ excessAfter < NodeSize then none
      else
        some (if excessBefore = 0 then none else some ⟨h.addr, excessBefore⟩,
          start,
          if excessAfter = 0 then none else some ⟨stop, excessAfter⟩)

/-- `LinkedListAllocator::allocate`: first-fit walk; the first hole the
layout fits in is replaced by its remnants and the aligned start is
returned. -/
def ll_allocate (l : NLayout) : List Hole → Option (Nat × List Hole)
  | [] => none
  | h :: rest =>
    match fit_alloc h l with
    | some (before, start, after) => some (start, before.toList ++ after.toList ++ rest)
    | none => (ll_allocate l rest).map fun r => (r.1, h :: r.2)

/-- The walk of `LinkedListAllocator::push`: `prevEnd` is the end address
of the node the walk stands on (initially the sentinel).  Returns the
number of bytes the freed hole merged into that node (its `size +=`)
together with the list behind it. -/
def ll_push_from (prevEnd : Nat) (hole : Hole) : List Hole → Nat × List Hole
  | next :: rest =>
    if next.addr < hole.addr then
      let r := ll_push_from (next.addr + next.size) hole rest
      (0, { next with size := next.size + r.1 } :: r.2)
    else
      let m := if next.addr = hole.addr + hole.size
        then (Hole.mk hole.addr (hole.size + next.size), rest)
        else (hole, next :: rest)
      if m.1.addr = prevEnd then (m.1.size, m.2) else (0, m.1 :: m.2)
  | [] => if hole.addr = prevEnd then (hole.size, []) else (0, [hole])

/-- `LinkedListAllocator::push`, from the sentinel head node at
`sentinelAddr` (end address `sentinelAddr + 0`). -/
def ll_push (sentinelAddr : Nat) (hole : Hole) (hs : List Hole) : List Hole :=
  (ll_push_from sentinelAddr hole hs).2

/-- `LinkedListAllocator::init(heap_start, heap_size)`: push the heap range
as one hole (callable repeatedly to grow the heap). -/
def ll_init (sentinelAddr heapStart heapSize : Nat) (hs : List Hole) : List Hole :=
  ll_push sentinelAddr ⟨heapStart, heapSize⟩ hs

/-- `LinkedListAllocator::deallocate(addr, layout)`: push
`Hole::from_alloc(addr, layout)`. -/
def ll_deallocate (sentinelAddr addr : Nat) (l : NLayout) (hs : List Hole) : List Hole :=
  ll_push sentinelAddr ⟨addr, l.size⟩ hs

/-- The in-place walk of `LinkedListAllocator::reallocate`: grow into the
adjacent following hole, or shrink at the end of the list; `none` means the
walk fell through to the allocate-copy-deallocate path.  The source's
`assert!`s (`before.is_none()`, `addr == start`) hold whenever `addr` is
aligned to the layout, as it is for every address `allocate` returns. -/
def ll_realloc_walk (hole : Hole) (nl : NLayout) (addr : Nat) :
    List Hole → Option (Nat × List Hole)
  | next :: rest =>
    if next.addr < hole.addr then
      (ll_realloc_walk hole nl addr rest).map fun r => (r.1, next :: r.2)
    else if next.addr = hole.addr + hole.size then
      match fit_alloc ⟨hole.addr, hole.size + next.size⟩ nl with
      | some (_, _, after) => some (addr, after.toList ++ rest)
      | none => none
    else none
  | [] =>
    match fit_alloc hole nl with
    | some (_, _, after) => some (addr, after.toList)
    | none => none

/-- `LinkedListAllocator::reallocate(addr, layout, new_size)`. -/
def ll_reallocate (sentinelAddr addr : Nat) (l : NLayout) (newSize : Nat) (hs : List Hole) :
    Option (Nat × List Hole) :=
  let hole : Hole := ⟨addr, l.size⟩
  let nl := toNodeLayout ⟨newSize, l.align⟩
  match fit_alloc hole nl with
  | some (_, _, none) => some (addr, hs)
  | _ =>
    match ll_realloc_walk hole nl addr hs with
    | some r => some r
    | none =>
      match ll_allocate nl hs with
      | some (newAddr, hs1) => some (newAddr, ll_push sentinelAddr ⟨addr, l.size⟩ hs1)
      | none => none

/-- The free-list invariant: holes strictly sorted by ascending address
with no two holes overlapping or adjacent. -/
def llWF (hs : List Hole) : Prop :=
  List.Pairwise (fun a b => a.addr + a.size < b.addr) hs

instance : DecidablePred llWF := fun hs =>
  inferInstanceAs (Decidable (List.Pairwise _ hs))

/-- The block `[addr, addr + size)` does not intersect any hole of the
list (it is allocated memory). -/
def disjointFrom (addr size : Nat) (hs : List Hole) : Prop :=
  ∀ h ∈ hs, addr + size ≤ h.addr ∨ h.addr + h.size ≤ addr

instance (addr size : Nat) : DecidablePred (disjointFrom addr size) := fun hs =>
  inferInstanceAs (Decidable (∀ h ∈ hs, _ ∨ _))

/-! ## Boot stub memory map (`uefi_stub/src/main.rs`, `efi_main`)

After `ExitBootServices` the stub receives an exact-size iterator over the
firmware's memory descriptors; descriptor `i` of the buffer lives at
`base + i * stride`.  The stub consumes two elements to compute the
descriptor stride, then takes the iterator's remaining length as the count. -/

/-- The `MemoryMap { ptr, size, len }` written into the `BootInfo`. -/
structure MemoryMapInfo where
  ptr : Nat
  size : Nat
  len : Nat
deriving DecidableEq, Repr

/-- Addresses of the descriptors in the final firmware memory map:
descriptor `i` lives at `base + i * stride`. -/
def descriptorAddrs (base stride : Nat) : Nat → List Nat
  | 0 => []
  | n + 1 => base :: descriptorAddrs (base + stride) stride n

/-- The memory-map computation of `efi_main`: two `next()` calls on the
descriptor iterator give the stride (falling back to the nominal
`size_of::<MemoryDescriptor>()`), then `len()` of what is left of the
iterator becomes the count, and the buffer pointer is shifted by the offset
mapping. -/
def buildMemoryMap (base stride total nominalSize : Nat) : MemoryMapInfo :=
  match descriptorAddrs base stride total with
  | fst :: snd :: rest => { ptr := base + offsetUsize, size := snd - fst, len := rest.length }
  | _ => { ptr := base + offsetUsize, size := nominalSize, len := 0 }

/-! ## ELF loader (`common/src/elf.rs`)

The `Mapper`/`Translate` pair is abstracted to a single-level view: a map
from virtual page number to backing physical frame number (`map_to` on an
already-mapped page fails, as the `x86_64` mapper does; page-table-interior
frames are not modelled).  Physical memory is a byte function; the raw
`copy_nonoverlapping`/`write_bytes` calls act on it directly. -/

/-- Bytes per page and per frame (`Size4KiB`). -/
def PS : Nat := 4096

/-- Machine state: physical memory and the flat page-table view. -/
structure Mach where
  mem : Nat → Nat
  pt : Nat → Option Nat

/-- `ptr::write_bytes(dst, 0, n)` on physical memory. -/
def zeroBytes (m : Nat → Nat) (dst n : Nat) : Nat → Nat :=
  fun x => if dst ≤ x ∧ x < dst + n then 0 else m x

/-- `ptr::copy_nonoverlapping(src, dst, n)` on physical memory (source and
destination are disjoint at every call in scope). -/
def copyBytes (m : Nat → Nat) (src dst n : Nat) : Nat → Nat :=
  fun x => if dst ≤ x ∧ x < dst + n then m (src + (x - dst)) else m x

/-- `Mapper::map_to(page, frame, flags, allocator)`: fails with
`PageAlreadyMapped` when the page has an entry. -/
def mapTo (st : Mach) (p f : Nat) : Option Mach :=
  match st.pt p with
  | some _ => none
  | none => some { st with pt := fun q => if q = p then some f else st.pt q }

/-- `Mapper::unmap(page)`: fails when the page has no entry; returns the
frame that was mapped there. -/
def unmapPage (st : Mach) (p : Nat) : Option (Mach × Nat) :=
  match st.pt p with
  | none => none
  | some f => some ({ st with pt := fun q => if q = p then none else st.pt q }, f)

/-- `Translate::translate_addr`. -/
def translateAddr (pt : Nat → Option Nat) (v : Nat) : Option Nat :=
  (pt (v / PS)).map fun f => f * PS + v % PS

/-- A `PT_LOAD` program header: `p_vaddr`, `p_offset`, `p_filesz`,
`p_memsz`.  The segment flags only choose page-table attribute bits, which
the flat view does not track. -/
structure Seg where
  vaddr : Nat
  off : Nat
  fileSize : Nat
  memSize : Nat

/-- Map a list of `(page, frame)` pairs (`page_range.zip(frame_range)`). -/
def mapPages (st : Mach) : List (Nat × Nat) → Option Mach
  | [] => some st
  | (p, f) :: rest => (mapTo st p f).bind fun st1 => mapPages st1 rest

/-- The body of one fresh-frame iteration of `load_segment` (after the
`map_to`): on iteration 0 copy the remaining file-backed bytes into the
fresh frame at their in-page offset and zero the rest of the frame; on
later iterations zero the whole frame. -/
def freshBody (physStart physEnd frameEnd i f : Nat) (st : Mach) : Mach :=
  let ps := max physStart (frameEnd * PS)
  let off := ps % PS
  let cnt := physEnd - ps + 1
  let zeroStart := if i = 0 then off + cnt else 0
  let m1 := if i = 0 then copyBytes st.mem ps (f * PS + off) cnt else st.mem
  { st with mem := zeroBytes m1 (f * PS + zeroStart) (PS - zeroStart) }

/-- The fresh-frame loop of `load_segment` over `new_range`, popping one
frame from the allocator per page. -/
def freshLoop (physStart physEnd frameEnd : Nat) (i : Nat) (st : Mach) (alloc : List Nat) :
    List Nat → Option (Mach × List Nat)
  | [] => some (st, alloc)
  | p :: pages =>
    match alloc with
    | [] => none
    | f :: alloc1 =>
      (mapTo st p f).bind fun st1 =>
        freshLoop physStart physEnd frameEnd (i + 1)
          (freshBody physStart physEnd frameEnd i f st1) alloc1 pages

/-- `ElfInfo::load_segment` for one `PT_LOAD` header.  `user` selects
translating the ELF backing pointer through the page table (the boot phase
assumes identity); `elfBase` is the address of the embedded ELF bytes;
`pieOff` the PIE base offset; `alloc` the upcoming frames of the frame
allocator. -/
def load_segment (user : Bool) (elfBase : Nat) (seg : Seg) (pieOff : Nat)
    (st : Mach) (alloc : List Nat) : Option (Mach × List Nat) :=
  if seg.memSize = 0 then some (st, alloc)
  else
    let virtStart := seg.vaddr + pieOff
    let virtEnd := virtStart + seg.memSize - 1
    let elfVirt := elfBase + seg.off
    (if user then translateAddr st.pt elfVirt else some elfVirt).bind fun physStart =>
      let physEnd := physStart + seg.fileSize - 1
      let pageStart := virtStart / PS
      let pageEnd := virtEnd / PS
      let frameStart := physStart / PS
      let frameEnd := physEnd / PS
      if seg.fileSize < seg.memSize then
        let newStart := (virtStart + seg.fileSize - 1) / PS
        (freshLoop physStart physEnd frameEnd 0 st alloc (rangeIncl newStart pageEnd)).bind
          fun r =>
            (mapPages r.1 ((rangeIncl pageStart (newStart - 1)).zip
              (rangeIncl frameStart frameEnd))).map fun st2 => (st2, r.2)
      else
        (mapPages st ((rangeIncl pageStart pageEnd).zip
          (rangeIncl frameStart frameEnd))).map fun st2 => (st2, alloc)

/-- Unmap a list of pages, flushing only (no deallocation). -/
def unmapPages (st : Mach) : List Nat → Option Mach
  | [] => some st
  | p :: pages => (unmapPage st p).bind fun r => unmapPages r.1 pages

/-- Unmap a list of pages, handing each frame to the deallocator in
order. -/
def unmapDealloc (st : Mach) (freed : List Nat) : List Nat → Option (Mach × List Nat)
  | [] => some (st, freed)
  | p :: pages => (unmapPage st p).bind fun r => unmapDealloc r.1 (freed ++ [r.2]) pages

/-- `ElfInfo::unload_segment`: deallocate the fresh frames of the
`mem_size > file_size` tail, unmap the file-backed pages without freeing
their frames. -/
def unload_segment (seg : Seg) (pieOff : Nat) (st : Mach) : Option (Mach × List Nat) :=
  if seg.memSize = 0 then some (st, [])
  else
    let virtStart := seg.vaddr + pieOff
    let virtEnd := virtStart + seg.memSize - 1
    let pageStart := virtStart / PS
    let pageEnd := virtEnd / PS
    if seg.fileSize < seg.memSize then
      let newStart := (virtStart + seg.fileSize - 1) / PS
      (unmapDealloc st [] (rangeIncl newStart pageEnd)).bind fun r =>
        (unmapPages r.1 (rangeIncl pageStart (newStart - 1))).map fun st2 => (st2, r.2)
    else
      (unmapPages st (rangeIncl pageStart pageEnd)).map fun st2 => (st2, [])

/-- Read one byte of memory through the page table. -/
def readVirt (st : Mach) (v : Nat) : Option Nat :=
  (st.pt (v / PS)).map fun f => st.mem (f * PS + v % PS)

/-- The number of fresh frames `load_segment` takes from the allocator. -/
def freshCount (seg : Seg) (pieOff : Nat) : Nat :=
  if seg.fileSize < seg.memSize then
    (seg.vaddr + pieOff + seg.memSize - 1) / PS -
      (seg.vaddr + pieOff + seg.fileSize - 1) / PS + 1
  else 0

/-! ## Syscall dispatcher (`kernel/src/threads.rs`, `syscall_loop`)

The dispatcher reads `(RDI, RSI, RDX)` after each `SYSCALL`; `Log` passes
the bytes `rsi..rsi+rdx` of user memory to `str::from_utf8`. -/

/-- A UTF-8 continuation byte, `0x80..=0xBF`. -/
def isCont (c : Nat) : Bool :=
  0x80 ≤ c && c ≤ 0xBF

/-- The validation states of `core::str::from_utf8`: expecting a start
byte, expecting 1-3 plain continuation bytes (`0x80..=0xBF`), or expecting
the constrained continuation byte after `E0`/`ED`/`F0`/`F4`. -/
inductive Utf8State where
  | start
  | cont1
  | cont2
  | cont3
  | afterE0
  | afterED
  | afterF0
  | afterF4
deriving DecidableEq, Repr

/-- One byte of `core::str::from_utf8` validation (the RFC 3629 table Rust
implements): ASCII, `C2..DF`+cont, `E0 A0..BF`+cont, `E1..EC`/`EE..EF`
+2 conts, `ED 80..9F`+cont (no surrogates), `F0 90..BF`/`F1..F3`/
`F4 80..8F` +2 conts; `none` rejects. -/
def utf8Next : Utf8State → Nat → Option Utf8State
  | .start, b =>
    if b ≤ 0x7F then some .start
    else if 0xC2 ≤ b ∧ b ≤ 0xDF then some .cont1
    else if b = 0xE0 then some .afterE0
    else if 0xE1 ≤ b ∧ b ≤ 0xEC then some .cont2
    else if b = 0xED then some .afterED
    else if 0xEE ≤ b ∧ b ≤ 0xEF then some .cont2
    else if b = 0xF0 then some .afterF0
    else if 0xF1 ≤ b ∧ b ≤ 0xF3 then some .cont3
    else if b = 0xF4 then some .afterF4
    else none
  | .cont1, b => if 0x80 ≤ b ∧ b ≤ 0xBF then some .start else none
  | .cont2, b => if 0x80 ≤ b ∧ b ≤ 0xBF then some .cont1 else none
  | .cont3, b => if 0x80 ≤ b ∧ b ≤ 0xBF then some .cont2 else none
  | .afterE0, b => if 0xA0 ≤ b ∧ b ≤ 0xBF then some .cont1 else none
  | .afterED, b => if 0x80 ≤ b ∧ b ≤ 0x9F then some .cont1 else none
  | .afterF0, b => if 0x90 ≤ b ∧ b ≤ 0xBF then some .cont2 else none
  | .afterF4, b => if 0x80 ≤ b ∧ b ≤ 0x8F then some .cont2 else none

/-- Run the validation from a given state; a byte sequence is accepted when
it ends back in the start state. -/
def utf8Run : Utf8State → List Nat → Bool
  | s, [] => s = Utf8State.start
  | s, b :: rest =>
    match utf8Next s b with
    | some s1 => utf8Run s1 rest
    | none => false

/-- `core::str::from_utf8` validation of a byte sequence. -/
def utf8Valid (l : List Nat) : Bool :=
  utf8Run Utf8State.start l

/-- A Unicode scalar value: below `0x110000` and not a surrogate. -/
def isScalar (c : Nat) : Prop :=
  c < 0x110000 ∧ ¬ (0xD800 ≤ c ∧ c ≤ 0xDFFF)

instance : DecidablePred isScalar := fun c =>
  inferInstanceAs (Decidable (_ ∧ _))

/-- The UTF-8 encoding of one scalar value. -/
def encodeChar (c : Nat) : List Nat :=
  if c < 0x80 then [c]
  else if c < 0x800 then [0xC0 + c / 64, 0x80 + c % 64]
  else if c < 0x10000 then [0xE0 + c / 4096, 0x80 + c / 64 % 64, 0x80 + c % 64]
  else [0xF0 + c / 262144, 0x80 + c / 4096 % 64, 0x80 + c / 64 % 64, 0x80 + c % 64]

/-- The UTF-8 encoding of a sequence of scalar values. -/
def encodeUtf8 (cs : List Nat) : List Nat :=
  (cs.map encodeChar).flatten

/-- The log lines the dispatcher can emit. -/
inductive LogEvent where
  | userExit (code : Nat)
  | userMessage (bytes : List Nat)
  | invalidUtf8Warning
  | unknownSyscall (code : Nat)
deriving DecidableEq, Repr

/-- Whether one iteration of `syscall_loop` returns or loops with a result
in `rax`. -/
inductive StepResult where
  | exited
  | continueWith (rax : Nat)
deriving DecidableEq, Repr

/-- `uefi::proto::console::gop::PixelFormat`. -/
inductive GopPixelFormat where
  | rgb
  | bgr
  | bitmask
  | bltOnly
deriving DecidableEq, Repr

/-- One dispatch of `syscall_loop` on `(code, rsi, rdx)`: `readMem` gives
the byte of user memory at each address, `fb` is the boot frame buffer's
pixel format when one is present.  `rax` is reset to 0 before the match;
the page-table mapping and descriptor write of the `FrameBuffer` branch
act outside the dispatcher's register state and are elided, but every
branch's `rax` and log emissions are modelled. -/
def syscall_step (code rsi rdx : Nat) (readMem : Nat → Nat) (fb : Option GopPixelFormat) :
    StepResult × List LogEvent :=
  if code = 0 then (.exited, [.userExit rsi])
  else if code = 1 then
    let s := (List.range rdx).map fun i => readMem (rsi + i)
    if utf8Valid s then (.continueWith 0, [.userMessage s])
    else (.continueWith 1, [.invalidUtf8Warning])
  else if code = 2 then
    match fb with
    | some .rgb => (.continueWith 0, [])
    | some .bgr => (.continueWith 0, [])
    | some .bitmask => (.continueWith 1, [])
    | some .bltOnly => (.continueWith 1, [])
    | none => (.continueWith 1, [])
  else (.continueWith 1, [.unknownSyscall code])

/-! # Theorems -/

/-! ## Supporting lemmas: bump allocator -/

/-- A successful bump allocation only bumps `next` and increments `count`. -/
theorem bump_allocate_some {l : Lyt} {s s1 : BumpState} {a : Nat}
    (h : bump_allocate l s = (some a, s1)) :
    s1.start = s.start ∧ s1.heapEnd = s.heapEnd ∧ s1.count = s.count + 1 ∧
      a = alignUp s.next l.align := by
  unfold bump_allocate at h
  by_cases h0 : s.start = 0
  · simp [h0] at h
  · simp only [h0, if_false] at h
    by_cases hc : alignUp s.next l.align + l.size < s.heapEnd
    · simp only [hc, if_true] at h
      obtain ⟨h1, h2⟩ := Prod.mk.injEq .. ▸ h
      cases h1
      exact ⟨by rw [← h2], by rw [← h2], by rw [← h2], rfl⟩
    · simp [hc] at h

/-- Running a list of successful allocations preserves `start` and `heapEnd`
and raises `count` by the number of allocations. -/
theorem bump_alloc_list_invar :
    ∀ (ls : List Lyt) (s s1 : BumpState) (addrs : List Nat),
      bump_alloc_list ls s = some (s1, addrs) →
      s1.start = s.start ∧ s1.heapEnd = s.heapEnd ∧ s1.count = s.count + ls.length
  | [], s, s1, addrs, h => by
    simp only [bump_alloc_list, Option.some.injEq, Prod.mk.injEq] at h
    obtain ⟨h1, _⟩ := h
    simp [← h1]
  | l :: ls, s, s1, addrs, h => by
    simp only [bump_alloc_list] at h
    rcases ha : bump_allocate l s with ⟨oa, s2⟩
    rw [ha] at h
    rcases oa with _ | a
    · simp at h
    · dsimp only at h
      rcases hb : bump_alloc_list ls s2 with _ | ⟨s3, addrs3⟩
      · rw [hb] at h
        simp at h
      · rw [hb] at h
        rw [Option.map_some'] at h
        simp only [Option.some.injEq, Prod.mk.injEq] at h
        obtain ⟨h1eq, _⟩ := h
        obtain ⟨hst, hhe, hct, _⟩ := bump_allocate_some ha
        obtain ⟨h1, h2, h3⟩ := bump_alloc_list_invar ls s2 s3 addrs3 hb
        subst h1eq
        refine ⟨h1.trans hst, h2.trans hhe, ?_⟩
        rw [h3, hct, List.length_cons]
        omega

/-- `n` deallocations from a state whose live count is `n` reset the bump
pointer to `start` (unless `n = 0`, in which case nothing happens). -/
theorem bump_dealloc_n_reset :
    ∀ (k : Nat) (s : BumpState), s.count = k →
      bump_dealloc_n k s = if k = 0 then s else { s with count := 0, next := s.start }
  | 0, s, _ => by simp [bump_dealloc_n]
  | k + 1, s, h => by
    simp only [bump_dealloc_n, bump_deallocate]
    rcases Nat.eq_zero_or_pos k with hk | hk
    · subst hk
      have : count_decrease s = { s with count := 0, next := s.start } := by
        unfold count_decrease
        rw [if_pos (by omega)]
        simp [h]
      rw [this]
      simp [bump_dealloc_n]
    · have hne : ¬ s.count = 1 := by omega
      have : count_decrease s = { s with count := k } := by
        unfold count_decrease
        rw [if_neg hne]
        simp [h]
      rw [this]
      have := bump_dealloc_n_reset k { s with count := k } rfl
      rw [this, if_neg (by omega)]
      simp [if_neg (Nat.succ_ne_zero k)]

/-- The address returned by `allocate` depends only on `start`, `next` and
`end`, not on `count`. -/
theorem bump_allocate_fst_congr {L : Lyt} {s t : BumpState}
    (h1 : s.start = t.start) (h2 : s.next = t.next) (h3 : s.heapEnd = t.heapEnd) :
    (bump_allocate L s).1 = (bump_allocate L t).1 := by
  unfold bump_allocate
  rw [h1, h2, h3]
  by_cases h0 : t.start = 0
  · simp [h0]
  · simp only [h0, if_false]
    by_cases hc : alignUp t.next L.align + L.size < t.heapEnd
    · simp [hc]
    · simp [hc]

/-! ## Supporting lemmas: free-list allocator -/

/-- Aligning up never moves an address down. -/
theorem alignUp_ge (addr align : Nat) : addr ≤ alignUp addr align := by
  unfold alignUp
  split <;> omega

/-- The node layouts produced from `Layout`s are at least a node large. -/
theorem toNodeLayout_size (l : Lyt) : NodeSize ≤ (toNodeLayout l).size :=
  le_max_right _ _

/-- Everything `fit_alloc` promises about its pieces. -/
theorem fit_alloc_spec {h : Hole} {nl : NLayout} {b : Option Hole} {s : Nat} {a : Option Hole}
    (hf : fit_alloc h nl = some (b, s, a)) :
    h.addr ≤ s ∧ s + nl.size ≤ h.addr + h.size ∧
      (b = none → s = h.addr) ∧
      (∀ hb, b = some hb → hb.addr = h.addr ∧ h.addr + hb.size = s ∧ NodeSize ≤ hb.size) ∧
      (a = none → s + nl.size = h.addr + h.size) ∧
      (∀ ha, a = some ha →
        ha.addr = s + nl.size ∧ ha.addr + ha.size = h.addr + h.size ∧ NodeSize ≤ ha.size) := by
  unfold fit_alloc at hf
  have hge : h.addr ≤ alignUp h.addr nl.align := alignUp_ge h.addr nl.align
  by_cases h1 : h.addr + h.size < alignUp h.addr nl.align + nl.size
  · simp [h1] at hf
  · rw [if_neg h1] at hf
    by_cases h2 : alignUp h.addr nl.align - h.addr ≠ 0 ∧ alignUp h.addr nl.align - h.addr < NodeSize
    · rw [if_pos h2] at hf
      exact absurd hf (by simp)
    · rw [if_neg h2] at hf
      by_cases h3 : h.addr + h.size - (alignUp h.addr nl.align + nl.size) ≠ 0 ∧
          h.addr + h.size - (alignUp h.addr nl.align + nl.size) < NodeSize
      · rw [if_pos h3] at hf
        exact absurd hf (by simp)
      · rw [if_neg h3] at hf
        simp only [Option.some.injEq, Prod.mk.injEq] at hf
        obtain ⟨hb, hs', ha⟩ := hf
        subst hs'
        refine ⟨hge, by omega, ?_, ?_, ?_, ?_⟩
        · intro hbn
          rw [hbn] at hb
          by_cases hz : alignUp h.addr nl.align - h.addr = 0
          · omega
          · rw [if_neg hz] at hb
            exact absurd hb.symm (by simp)
        · intro hb1 hbe
          rw [hbe] at hb
          by_cases hz : alignUp h.addr nl.align - h.addr = 0
          · rw [if_pos hz] at hb
            exact absurd hb (by simp)
          · rw [if_neg hz] at hb
            have heq := Option.some.inj hb.symm
            rw [heq]
            refine ⟨rfl, by dsimp only; omega, by dsimp only; omega⟩
        · intro han
          rw [han] at ha
          by_cases hz : h.addr + h.size - (alignUp h.addr nl.align + nl.size) = 0
          · omega
          · rw [if_neg hz] at ha
            exact absurd ha.symm (by simp)
        · intro ha1 hae
          rw [hae] at ha
          by_cases hz : h.addr + h.size - (alignUp h.addr nl.align + nl.size) = 0
          · rw [if_pos hz] at ha
            exact absurd ha (by simp)
          · rw [if_neg hz] at ha
            have heq := Option.some.inj ha.symm
            rw [heq]
            refine ⟨rfl, by dsimp only; omega, by dsimp only; omega⟩

/-- `allocate` keeps the free list well-formed, keeps every remnant inside
an original hole, and places the returned block inside an original hole. -/
theorem ll_allocate_spec {nl : NLayout} (hsize : 1 ≤ nl.size) :
    ∀ (hs : List Hole) (p : Nat) (hs1 : List Hole), llWF hs →
      ll_allocate nl hs = some (p, hs1) →
      llWF hs1 ∧
        (∀ x ∈ hs1, ∃ h ∈ hs, h.addr ≤ x.addr ∧ x.addr + x.size ≤ h.addr + h.size) ∧
        (∃ h ∈ hs, h.addr ≤ p ∧ p + nl.size ≤ h.addr + h.size) ∧
        ((∀ h ∈ hs, 1 ≤ h.size) → ∀ x ∈ hs1, 1 ≤ x.size)
  | [], p, hs1, hwf, hall => by simp [ll_allocate] at hall
  | h :: rest, p, hs1, hwf, hall => by
    rw [llWF, List.pairwise_cons] at hwf
    obtain ⟨hrel, hrest⟩ := hwf
    simp only [ll_allocate] at hall
    rcases hfit : fit_alloc h nl with _ | ⟨b, s, a⟩
    · rw [hfit] at hall
      dsimp only at hall
      rcases hrec : ll_allocate nl rest with _ | ⟨q, rest1⟩
      · rw [hrec] at hall
        simp at hall
      · rw [hrec] at hall
        rw [Option.map_some'] at hall
        simp only [Option.some.injEq, Prod.mk.injEq] at hall
        obtain ⟨hq, hl⟩ := hall
        subst hq
        subst hl
        obtain ⟨hwf1, hcont, hin, hpos1⟩ := ll_allocate_spec hsize rest q rest1 hrest hrec
        refine ⟨?_, ?_, ?_, ?_⟩
        · rw [llWF, List.pairwise_cons]
          refine ⟨?_, hwf1⟩
          intro x hx
          obtain ⟨hh, hhm, hh1, _⟩ := hcont x hx
          exact lt_of_lt_of_le (hrel hh hhm) hh1
        · intro x hx
          rcases List.mem_cons.mp hx with hx | hx
          · exact ⟨h, List.mem_cons_self .., by simp [hx]⟩
          · obtain ⟨hh, hhm, hb⟩ := hcont x hx
            exact ⟨hh, List.mem_cons_of_mem _ hhm, hb⟩
        · obtain ⟨hh, hhm, hb⟩ := hin
          exact ⟨hh, List.mem_cons_of_mem _ hhm, hb⟩
        · intro hpos x hx
          rcases List.mem_cons.mp hx with hx | hx
          · subst hx
            exact hpos x (List.mem_cons_self ..)
          · exact hpos1 (fun y hy => hpos y (List.mem_cons_of_mem _ hy)) x hx
    · rw [hfit] at hall
      dsimp only at hall
      simp only [Option.some.injEq, Prod.mk.injEq] at hall
      obtain ⟨hp, hl⟩ := hall
      subst hp
      subst hl
      obtain ⟨hge, hfits, hbn, hbs, han, has⟩ := fit_alloc_spec hfit
      have hns : 1 ≤ NodeSize := by decide
      rcases b with _ | hb <;> rcases a with _ | ha
      · have hsn := hbn rfl
        have hen := han rfl
        refine ⟨by simpa [llWF] using hrest, ?_, ⟨h, List.mem_cons_self .., hge, hfits⟩, ?_⟩
        · intro x hx
          simp only [Option.toList, List.nil_append] at hx
          exact ⟨x, List.mem_cons_of_mem _ hx, le_refl _, le_refl _⟩
        · intro hpos x hx
          simp only [Option.toList, List.nil_append] at hx
          exact hpos x (List.mem_cons_of_mem _ hx)
      · have hsn := hbn rfl
        obtain ⟨ha1, ha2, ha3⟩ := has ha rfl
        refine ⟨?_, ?_, ⟨h, List.mem_cons_self .., hge, hfits⟩, ?_⟩
        · simp only [Option.toList, List.nil_append, List.cons_append]
          rw [llWF, List.pairwise_cons]
          refine ⟨?_, hrest⟩
          intro x hx
          have := hrel x hx
          omega
        · intro x hx
          simp only [Option.toList, List.nil_append, List.cons_append, List.mem_cons] at hx
          rcases hx with hx | hx
          · subst hx
            exact ⟨h, List.mem_cons_self .., by omega, by omega⟩
          · exact ⟨x, List.mem_cons_of_mem _ hx, le_refl _, le_refl _⟩
        · intro hpos x hx
          simp only [Option.toList, List.nil_append, List.cons_append, List.mem_cons] at hx
          rcases hx with hx | hx
          · subst hx
            omega
          · exact hpos x (List.mem_cons_of_mem _ hx)
      · obtain ⟨hb1, hb2, hb3⟩ := hbs hb rfl
        have hen := han rfl
        refine ⟨?_, ?_, ⟨h, List.mem_cons_self .., hge, hfits⟩, ?_⟩
        · simp only [Option.toList, List.nil_append, List.cons_append]
          rw [llWF, List.pairwise_cons]
          refine ⟨?_, hrest⟩
          intro x hx
          have := hrel x hx
          omega
        · intro x hx
          simp only [Option.toList, List.nil_append, List.cons_append, List.mem_cons] at hx
          rcases hx with hx | hx
          · subst hx
            exact ⟨h, List.mem_cons_self .., by omega, by omega⟩
          · exact ⟨x, List.mem_cons_of_mem _ hx, le_refl _, le_refl _⟩
        · intro hpos x hx
          simp only [Option.toList, List.nil_append, List.cons_append, List.mem_cons] at hx
          rcases hx with hx | hx
          · subst hx
            omega
          · exact hpos x (List.mem_cons_of_mem _ hx)
      · obtain ⟨hb1, hb2, hb3⟩ := hbs hb rfl
        obtain ⟨ha1, ha2, ha3⟩ := has ha rfl
        refine ⟨?_, ?_, ⟨h, List.mem_cons_self .., hge, hfits⟩, ?_⟩
        · simp only [Option.toList, List.cons_append, List.nil_append]
          rw [llWF, List.pairwise_cons]
          constructor
          · intro x hx
            rcases List.mem_cons.mp hx with hx | hx
            · subst hx
              omega
            · have := hrel x hx
              omega
          · rw [List.pairwise_cons]
            refine ⟨?_, hrest⟩
            intro x hx
            have := hrel x hx
            omega
        · intro x hx
          simp only [Option.toList, List.cons_append, List.nil_append, List.mem_cons] at hx
          rcases hx with hx | hx | hx
          · subst hx
            exact ⟨h, List.mem_cons_self .., by omega, by omega⟩
          · subst hx
            exact ⟨h, List.mem_cons_self .., by omega, by omega⟩
          · exact ⟨x, List.mem_cons_of_mem _ hx, le_refl _, le_refl _⟩
        · intro hpos x hx
          simp only [Option.toList, List.cons_append, List.nil_append, List.mem_cons] at hx
          rcases hx with hx | hx | hx
          · subst hx
            omega
          · subst hx
            omega
          · exact hpos x (List.mem_cons_of_mem _ hx)

/-- The walk of `push` below the node whose end is `prevEnd`, when that
node lies before every remaining hole and before the freed hole: the walk
either merges the freed hole into that node (growth = its full merged size)
or returns a well-formed list whose holes all start after `prevEnd`. -/
theorem ll_push_from_spec {hole : Hole} (hsize : 1 ≤ hole.size) :
    ∀ (hs : List Hole) (prevEnd : Nat), llWF hs →
      disjointFrom hole.addr hole.size hs →
      (∀ h ∈ hs, 1 ≤ h.size) →
      (∀ h ∈ hs, prevEnd < h.addr) →
      prevEnd ≤ hole.addr →
      ((ll_push_from prevEnd hole hs).1 = 0 →
        llWF (ll_push_from prevEnd hole hs).2 ∧
          ∀ x ∈ (ll_push_from prevEnd hole hs).2, prevEnd < x.addr) ∧
      ((ll_push_from prevEnd hole hs).1 ≠ 0 →
        hole.addr = prevEnd ∧ llWF (ll_push_from prevEnd hole hs).2 ∧
          ∀ x ∈ (ll_push_from prevEnd hole hs).2,
            prevEnd + (ll_push_from prevEnd hole hs).1 < x.addr)
  | [], prevEnd, hwf, hdj, hpos, hbefore, hple => by
    by_cases hpe : hole.addr = prevEnd
    · simp only [ll_push_from, if_pos hpe]
      refine ⟨fun hc => absurd hc (by omega), fun _ => ⟨hpe, ?_, by simp⟩⟩
      simp [llWF]
    · simp only [ll_push_from, if_neg hpe]
      refine ⟨fun _ => ⟨by simp [llWF], ?_⟩, fun hc => absurd rfl hc⟩
      intro x hx
      simp only [List.mem_singleton] at hx
      subst hx
      omega
  | next :: rest, prevEnd, hwf, hdj, hpos, hbefore, hple => by
    rw [llWF, List.pairwise_cons] at hwf
    obtain ⟨hrel, hrest⟩ := hwf
    have hd1 := hdj next (List.mem_cons_self ..)
    have hdrest : disjointFrom hole.addr hole.size rest :=
      fun y hy => hdj y (List.mem_cons_of_mem _ hy)
    have hposrest : ∀ h ∈ rest, 1 ≤ h.size :=
      fun y hy => hpos y (List.mem_cons_of_mem _ hy)
    have hpn := hpos next (List.mem_cons_self ..)
    have hbn := hbefore next (List.mem_cons_self ..)
    by_cases hadv : next.addr < hole.addr
    · have hph : next.addr + next.size ≤ hole.addr := by
        rcases hd1 with hd | hd <;> omega
      have IH := ll_push_from_spec hsize rest (next.addr + next.size) hrest hdrest hposrest
        (fun y hy => hrel y hy) hph
      simp only [ll_push_from, if_pos hadv]
      refine ⟨fun _ => ?_, fun hc => absurd rfl hc⟩
      by_cases hg : (ll_push_from (next.addr + next.size) hole rest).1 = 0
      · obtain ⟨hwf2, hbound⟩ := IH.1 hg
        constructor
        · rw [llWF, List.pairwise_cons]
          refine ⟨?_, hwf2⟩
          intro x hx
          have := hbound x hx
          simp only [hg]
          omega
        · intro x hx
          rcases List.mem_cons.mp hx with hx | hx
          · subst hx
            simpa using hbn
          · have := hbound x hx
            omega
      · obtain ⟨hpe, hwf2, hbound⟩ := IH.2 hg
        constructor
        · rw [llWF, List.pairwise_cons]
          refine ⟨?_, hwf2⟩
          intro x hx
          have := hbound x hx
          simp only []
          omega
        · intro x hx
          rcases List.mem_cons.mp hx with hx | hx
          · subst hx
            simpa using hbn
          · have := hbound x hx
            omega
    · simp only [ll_push_from, if_neg hadv]
      by_cases hmerge : next.addr = hole.addr + hole.size
      · rw [if_pos hmerge]
        dsimp only
        by_cases hpe : hole.addr = prevEnd
        · rw [if_pos hpe]
          refine ⟨fun hc => absurd hc (by dsimp only; omega), fun _ => ⟨hpe, hrest, ?_⟩⟩
          intro x hx
          have := hrel x hx
          dsimp only
          omega
        · rw [if_neg hpe]
          refine ⟨fun _ => ⟨?_, ?_⟩, fun hc => absurd rfl hc⟩
          · rw [llWF, List.pairwise_cons]
            refine ⟨?_, hrest⟩
            intro x hx
            have := hrel x hx
            dsimp only
            omega
          · intro x hx
            rcases List.mem_cons.mp hx with hx | hx
            · subst hx
              dsimp only
              omega
            · have := hrel x hx
              omega
      · rw [if_neg hmerge]
        dsimp only
        have hend : hole.addr + hole.size ≤ next.addr := by
          rcases hd1 with hd | hd <;> omega
        by_cases hpe : hole.addr = prevEnd
        · rw [if_pos hpe]
          refine ⟨fun hc => by dsimp only at hc; omega, fun _ => ⟨hpe, ?_, ?_⟩⟩
          · rw [llWF, List.pairwise_cons]
            exact ⟨hrel, hrest⟩
          · intro x hx
            dsimp only
            rcases List.mem_cons.mp hx with hx | hx
            · subst hx
              omega
            · have := hrel x hx
              omega
        · rw [if_neg hpe]
          refine ⟨fun _ => ⟨?_, ?_⟩, fun hc => absurd rfl hc⟩
          · rw [llWF, List.pairwise_cons]
            constructor
            · intro x hx
              rcases List.mem_cons.mp hx with hx | hx
              · subst hx
                omega
              · have := hrel x hx
                omega
            · rw [List.pairwise_cons]
              exact ⟨hrel, hrest⟩
          · intro x hx
            rcases List.mem_cons.mp hx with hx | hx
            · subst hx
              omega
            · rcases List.mem_cons.mp hx with hx | hx
              · subst hx
                omega
              · have := hrel x hx
                omega

/-- `push` from the sentinel preserves the free-list invariant whenever the
freed block is nonempty, disjoint from every hole, and not adjacent to the
sentinel node itself. -/
theorem ll_push_wf {hole : Hole} {sA : Nat} {hs : List Hole}
    (hwf : llWF hs) (hdj : disjointFrom hole.addr hole.size hs)
    (hpos : ∀ h ∈ hs, 1 ≤ h.size) (hsize : 1 ≤ hole.size) (hsA : sA ≠ hole.addr) :
    llWF (ll_push sA hole hs) := by
  rcases hs with _ | ⟨next, rest⟩
  · unfold ll_push ll_push_from
    rw [if_neg (fun hc => hsA hc.symm)]
    simp [llWF]
  · rw [llWF, List.pairwise_cons] at hwf
    obtain ⟨hrel, hrest⟩ := hwf
    have hd1 := hdj next (List.mem_cons_self ..)
    have hdrest : disjointFrom hole.addr hole.size rest :=
      fun y hy => hdj y (List.mem_cons_of_mem _ hy)
    have hposrest : ∀ h ∈ rest, 1 ≤ h.size :=
      fun y hy => hpos y (List.mem_cons_of_mem _ hy)
    have hpn := hpos next (List.mem_cons_self ..)
    unfold ll_push
    by_cases hadv : next.addr < hole.addr
    · have hph : next.addr + next.size ≤ hole.addr := by
        rcases hd1 with hd | hd <;> omega
      have IH := ll_push_from_spec hsize rest (next.addr + next.size) hrest hdrest hposrest
        (fun y hy => hrel y hy) hph
      simp only [ll_push_from, if_pos hadv]
      by_cases hg : (ll_push_from (next.addr + next.size) hole rest).1 = 0
      · obtain ⟨hwf2, hbound⟩ := IH.1 hg
        rw [llWF, List.pairwise_cons]
        refine ⟨?_, hwf2⟩
        intro x hx
        have := hbound x hx
        simp only [hg]
        omega
      · obtain ⟨hpe, hwf2, hbound⟩ := IH.2 hg
        rw [llWF, List.pairwise_cons]
        refine ⟨?_, hwf2⟩
        intro x hx
        have := hbound x hx
        simp only []
        omega
    · simp only [ll_push_from, if_neg hadv]
      by_cases hmerge : next.addr = hole.addr + hole.size
      · rw [if_pos hmerge]
        dsimp only
        rw [if_neg (fun hc => hsA hc.symm)]
        rw [llWF, List.pairwise_cons]
        refine ⟨?_, hrest⟩
        intro x hx
        have := hrel x hx
        dsimp only
        omega
      · rw [if_neg hmerge]
        dsimp only
        have hend : hole.addr + hole.size ≤ next.addr := by
          rcases hd1 with hd | hd <;> omega
        rw [if_neg (fun hc => hsA hc.symm)]
        rw [llWF, List.pairwise_cons]
        constructor
        · intro x hx
          rcases List.mem_cons.mp hx with hx | hx
          · subst hx
            omega
          · have := hrel x hx
            omega
        · rw [List.pairwise_cons]
          exact ⟨hrel, hrest⟩

/-- The in-place path of `reallocate` keeps the free list well-formed and
every resulting hole either starts inside the old span of the list or after
the reallocated block. -/
theorem ll_realloc_walk_wf {hole : Hole} {nl : NLayout}
    (hnl : 1 ≤ nl.size) (hhol : 1 ≤ hole.size) :
    ∀ (hs : List Hole) (p : Nat) (hs1 : List Hole) (addr : Nat), llWF hs →
      disjointFrom hole.addr hole.size hs →
      ll_realloc_walk hole nl addr hs = some (p, hs1) →
      llWF hs1 ∧ ∀ x ∈ hs1, (∃ y ∈ hs, y.addr ≤ x.addr) ∨ hole.addr < x.addr
  | [], p, hs1, addr, hwf, hdj, hrw => by
    simp only [ll_realloc_walk] at hrw
    rcases hfit : fit_alloc hole nl with _ | ⟨b, s, a⟩
    · rw [hfit] at hrw
      exact absurd hrw (by simp)
    · rw [hfit] at hrw
      dsimp only at hrw
      simp only [Option.some.injEq, Prod.mk.injEq] at hrw
      obtain ⟨hp, hl⟩ := hrw
      subst hl
      obtain ⟨hge, hfits, _, _, _, has⟩ := fit_alloc_spec hfit
      rcases a with _ | ha
      · exact ⟨by simp [llWF], by simp⟩
      · obtain ⟨ha1, ha2, ha3⟩ := has ha rfl
        refine ⟨by simp [llWF], ?_⟩
        intro x hx
        simp only [Option.toList, List.mem_singleton] at hx
        subst hx
        right
        omega
  | next :: rest, p, hs1, addr, hwf, hdj, hrw => by
    rw [llWF, List.pairwise_cons] at hwf
    obtain ⟨hrel, hrest⟩ := hwf
    have hd1 := hdj next (List.mem_cons_self ..)
    have hdrest : disjointFrom hole.addr hole.size rest :=
      fun y hy => hdj y (List.mem_cons_of_mem _ hy)
    simp only [ll_realloc_walk] at hrw
    by_cases hadv : next.addr < hole.addr
    · rw [if_pos hadv] at hrw
      rcases hrec : ll_realloc_walk hole nl addr rest with _ | ⟨q, rest1⟩
      · rw [hrec] at hrw
        exact absurd hrw (by simp)
      · rw [hrec, Option.map_some'] at hrw
        simp only [Option.some.injEq, Prod.mk.injEq] at hrw
        obtain ⟨hq, hl⟩ := hrw
        subst hl
        obtain ⟨hwf1, hbound⟩ := ll_realloc_walk_wf hnl hhol rest q rest1 addr hrest hdrest hrec
        have hne : next.addr + next.size ≤ hole.addr := by
          rcases hd1 with hd | hd <;> omega
        constructor
        · rw [llWF, List.pairwise_cons]
          refine ⟨?_, hwf1⟩
          intro x hx
          rcases hbound x hx with ⟨y, hym, hya⟩ | hxa
          · exact lt_of_lt_of_le (hrel y hym) hya
          · omega
        · intro x hx
          rcases List.mem_cons.mp hx with hx | hx
          · exact Or.inl ⟨next, List.mem_cons_self .., le_of_eq (congrArg Hole.addr hx.symm)⟩
          · rcases hbound x hx with ⟨y, hym, hya⟩ | hxa
            · exact Or.inl ⟨y, List.mem_cons_of_mem _ hym, hya⟩
            · exact Or.inr hxa
    · rw [if_neg hadv] at hrw
      by_cases hmerge : next.addr = hole.addr + hole.size
      · rw [if_pos hmerge] at hrw
        rcases hfit : fit_alloc ⟨hole.addr, hole.size + next.size⟩ nl with _ | ⟨b, s, a⟩
        · rw [hfit] at hrw
          exact absurd hrw (by simp)
        · rw [hfit] at hrw
          dsimp only at hrw
          simp only [Option.some.injEq, Prod.mk.injEq] at hrw
          obtain ⟨hp, hl⟩ := hrw
          subst hl
          obtain ⟨hge0, hfits0, _, _, _, has⟩ := fit_alloc_spec hfit
          have hge : hole.addr ≤ s := hge0
          have hfits : s + nl.size ≤ hole.addr + (hole.size + next.size) := hfits0
          rcases a with _ | ha
          · refine ⟨hrest, ?_⟩
            intro x hx
            exact Or.inl ⟨x, List.mem_cons_of_mem _ hx, le_refl _⟩
          · obtain ⟨ha1, ha20, ha3⟩ := has ha rfl
            have ha2 : ha.addr + ha.size = hole.addr + (hole.size + next.size) := ha20
            constructor
            · simp only [Option.toList, List.cons_append, List.nil_append]
              rw [llWF, List.pairwise_cons]
              refine ⟨?_, hrest⟩
              intro x hx
              have := hrel x hx
              omega
            · intro x hx
              simp only [Option.toList, List.cons_append, List.nil_append,
                List.mem_cons] at hx
              rcases hx with hx | hx
              · subst hx
                right
                omega
              · exact Or.inl ⟨x, List.mem_cons_of_mem _ hx, le_refl _⟩
      · rw [if_neg hmerge] at hrw
        exact absurd hrw (by simp)

/-- Round trip: pushing back exactly the block `allocate` handed out, with
the same node layout, restores the free list verbatim — provided the walk
starts before every hole. -/
theorem ll_alloc_push_round_trip {nl : NLayout} (hnl : 1 ≤ nl.size) :
    ∀ (hs : List Hole) (prevEnd p : Nat) (hs1 : List Hole), llWF hs →
      (∀ h ∈ hs, prevEnd < h.addr) →
      ll_allocate nl hs = some (p, hs1) →
      ll_push_from prevEnd ⟨p, nl.size⟩ hs1 = (0, hs)
  | [], prevEnd, p, hs1, hwf, hbefore, hall => by simp [ll_allocate] at hall
  | h :: rest, prevEnd, p, hs1, hwf, hbefore, hall => by
    rw [llWF, List.pairwise_cons] at hwf
    obtain ⟨hrel, hrest⟩ := hwf
    have hbh := hbefore h (List.mem_cons_self ..)
    simp only [ll_allocate] at hall
    rcases hfit : fit_alloc h nl with _ | ⟨b, s, a⟩
    · rw [hfit] at hall
      dsimp only at hall
      rcases hrec : ll_allocate nl rest with _ | ⟨q, rest1⟩
      · rw [hrec] at hall
        exact absurd hall (by simp)
      · rw [hrec, Option.map_some'] at hall
        simp only [Option.some.injEq, Prod.mk.injEq] at hall
        obtain ⟨hq, hl⟩ := hall
        subst hq
        subst hl
        obtain ⟨_, _, ⟨hh, hhm, hh1, _⟩, _⟩ := ll_allocate_spec hnl rest q rest1 hrest hrec
        have hcut : h.addr < q := by
          have := hrel hh hhm
          omega
        have IH := ll_alloc_push_round_trip hnl rest (h.addr + h.size) q rest1 hrest
          (fun y hy => hrel y hy) hrec
        simp only [ll_push_from]
        rw [if_pos (show h.addr < (Hole.mk q nl.size).addr from hcut)]
        rw [IH]
        simp
    · rw [hfit] at hall
      dsimp only at hall
      simp only [Option.some.injEq, Prod.mk.injEq] at hall
      obtain ⟨hp, hl⟩ := hall
      subst hp
      subst hl
      obtain ⟨hge, hfits, hbn, hbs, han, has⟩ := fit_alloc_spec hfit
      have hns : 1 ≤ NodeSize := by decide
      rcases b with _ | hb <;> rcases a with _ | ha <;>
        simp only [Option.toList, List.nil_append, List.cons_append]
      · have hs0 := hbn rfl
        have he0 := han rfl
        have hhole : Hole.mk s nl.size = h := by
          rcases h with ⟨a1, s1⟩
          simp only [Hole.mk.injEq]
          dsimp only at hs0 he0
          omega
        rcases rest with _ | ⟨x, xs⟩
        · simp only [ll_push_from]
          rw [if_neg (show ¬ (Hole.mk s nl.size).addr = prevEnd from by
            dsimp only; omega)]
          rw [hhole]
        · have hxr := hrel x (List.mem_cons_self ..)
          simp only [ll_push_from]
          rw [if_neg (show ¬ x.addr < (Hole.mk s nl.size).addr from by
            dsimp only; omega)]
          rw [if_neg (show ¬ x.addr = (Hole.mk s nl.size).addr + (Hole.mk s nl.size).size from by
            dsimp only; omega)]
          dsimp only
          rw [if_neg (show ¬ s = prevEnd from by omega)]
          rw [hhole]
      · have hs0 := hbn rfl
        obtain ⟨ha1, ha2, ha3⟩ := has ha rfl
        have hmerge : ha.addr = s + nl.size := ha1
        simp only [ll_push_from]
        rw [if_neg (show ¬ ha.addr < (Hole.mk s nl.size).addr from by
          dsimp only; omega)]
        rw [if_pos (show ha.addr = (Hole.mk s nl.size).addr + (Hole.mk s nl.size).size from by
          dsimp only; omega)]
        dsimp only
        rw [if_neg (show ¬ s = prevEnd from by omega)]
        have hhole : Hole.mk s (nl.size + ha.size) = h := by
          rcases h with ⟨a1, s1⟩
          simp only [Hole.mk.injEq]
          dsimp only at hs0 ha2
          omega
        rw [hhole]
      · obtain ⟨hb1, hb2, hb3⟩ := hbs hb rfl
        have he0 := han rfl
        simp only [ll_push_from]
        rw [if_pos (show hb.addr < (Hole.mk s nl.size).addr from by dsimp only; omega)]
        have hinner : ll_push_from (hb.addr + hb.size) (Hole.mk s nl.size) rest =
            (nl.size, rest) := by
          rcases rest with _ | ⟨x, xs⟩
          · simp only [ll_push_from]
            rw [if_pos (show (Hole.mk s nl.size).addr = hb.addr + hb.size from by
              dsimp only; omega)]
          · have hxr := hrel x (List.mem_cons_self ..)
            simp only [ll_push_from]
            rw [if_neg (show ¬ x.addr < (Hole.mk s nl.size).addr from by
              dsimp only; omega)]
            rw [if_neg (show ¬ x.addr = (Hole.mk s nl.size).addr + (Hole.mk s nl.size).size from by
              dsimp only; omega)]
            dsimp only
            rw [if_pos (show s = hb.addr + hb.size from by omega)]
        rw [hinner]
        have hhole : { hb with size := hb.size + nl.size } = h := by
          rcases hb with ⟨a1, s1⟩
          rcases h with ⟨a2, s2⟩
          simp only [Hole.mk.injEq]
          dsimp only at hb1 hb2 he0
          omega
        dsimp only
        rw [hhole]
      · obtain ⟨hb1, hb2, hb3⟩ := hbs hb rfl
        obtain ⟨ha1, ha2, ha3⟩ := has ha rfl
        simp only [ll_push_from]
        rw [if_pos (show hb.addr < (Hole.mk s nl.size).addr from by dsimp only; omega)]
        rw [if_neg (show ¬ ha.addr < s from by omega)]
        rw [if_pos (show ha.addr = s + nl.size from by omega)]
        dsimp only
        rw [if_pos (show s = hb.addr + hb.size from by omega)]
        have hhole : { hb with size := hb.size + (nl.size + ha.size) } = h := by
          rcases hb with ⟨a1, s1⟩
          rcases h with ⟨a2, s2⟩
          simp only [Hole.mk.injEq]
          dsimp only at hb1 hb2 ha1 ha2
          omega
        dsimp only
        rw [hhole]

/-! ## Claim theorems: numerics and simple allocators -/

/-- C2 counterexample: the heap constants are the octal literals of the
source, but their hexadecimal values are `0x4000_0000` and `0x20_0000`, not
the `0x1_0000_0000` and `0x40_0000` the claim states. -/
theorem c2_heap_constants_counterexample :
    HEAP_START = 0x40000000 ∧ ¬ HEAP_START = 0x100000000 ∧
      HEAP_SIZE = 0x200000 ∧ ¬ HEAP_SIZE = 0x400000 := by
  refine ⟨by decide, by decide, by decide, by decide⟩

/-- C2 (amended): the kernel heap starts at virtual `0o1_000_000_0000`,
which equals `0x4000_0000`, and spans `0o1_000_0000` bytes, which equals
`0x20_0000` bytes = 2 MiB. -/
theorem c2_heap_constants :
    HEAP_START = 0o10000000000 ∧ HEAP_START = 0x40000000 ∧
      HEAP_SIZE = 0o10000000 ∧ HEAP_SIZE = 0x200000 ∧ HEAP_SIZE = 2 * 1024 * 1024 := by
  refine ⟨by decide, by decide, by decide, by decide, by decide⟩

/-- C4: the `BootInfo` memory map takes its stride from the first two
descriptor addresses and its pointer is the buffer shifted by the offset
mapping, but its count is the iterator length sampled after those two
`next()` calls: `total - 2`, not `total`.  At a 3-descriptor memory map the
stored count is 1. -/
theorem c4_memory_map_count :
    (∀ base stride n nominal : Nat,
        buildMemoryMap base stride (n + 2) nominal =
          { ptr := base + offsetUsize, size := stride, len := n }) ∧
      buildMemoryMap 0x1000 48 3 48 = { ptr := 0x1000 + offsetUsize, size := 48, len := 1 } ∧
      (1 : Nat) ≠ 3 := by
  refine ⟨?_, by decide, by decide⟩
  intro base stride n nominal
  have hlen : ∀ (m b : Nat), (descriptorAddrs b stride m).length = m := by
    intro m
    induction m with
    | zero => intro b; rfl
    | succ k ih => intro b; simp [descriptorAddrs, ih]
  simp only [buildMemoryMap, descriptorAddrs]
  simp [hlen, Nat.add_sub_cancel_left]

/-- C10: an `alloc` on a bump allocator whose `start` is still zero returns
`None` and leaves the whole state unchanged (`count` and `next` included):
the uninitialized check precedes the count increment. -/
theorem c10_uninitialized_bump_alloc (l : Lyt) (s : BumpState) (h : s.start = 0) :
    bump_allocate l s = (none, s) := by
  unfold bump_allocate
  simp [h]

/-- C10 witness: the freshly constructed allocator at a concrete layout. -/
theorem c10_uninitialized_bump_alloc_witness :
    bump_new.start = 0 ∧ bump_allocate ⟨8, 8⟩ bump_new = (none, bump_new) :=
  ⟨rfl, c10_uninitialized_bump_alloc ⟨8, 8⟩ bump_new rfl⟩

/-- C5: from a freshly initialized bump allocator with nonzero start, any
sequence of successful allocations followed by equally many deallocations
resets the bump pointer to `start`, so the next `alloc(L)` returns the same
address as the first `alloc(L)` of the previous generation; in particular
the concrete `0x1000` scenario of the claim. -/
theorem c5_bump_generation_reset (hs hsz : Nat) (ls : List Lyt) (L : Lyt)
    (s1 : BumpState) (addrs : List Nat)
    (h0 : hs ≠ 0)
    (hrun : bump_alloc_list ls (bump_init hs hsz) = some (s1, addrs)) :
    (bump_dealloc_n ls.length s1).next = hs ∧
      (bump_allocate L (bump_dealloc_n ls.length s1)).1 =
        (bump_allocate L (bump_init hs hsz)).1 ∧
      ((bump_allocate ⟨8, 8⟩ (bump_init 0x1000 0x1000)).1 = some 0x1000 ∧
        (bump_allocate ⟨8, 8⟩
            (bump_deallocate (bump_deallocate
              (bump_allocate ⟨8, 8⟩ (bump_allocate ⟨8, 8⟩ (bump_init 0x1000 0x1000)).2).2))).1 =
          some 0x1000) := by
  obtain ⟨hst, hhe, hct⟩ := bump_alloc_list_invar ls (bump_init hs hsz) s1 addrs hrun
  have hst0 : (bump_init hs hsz).start = hs := rfl
  have hne0 : (bump_init hs hsz).next = hs := rfl
  have hhe0 : (bump_init hs hsz).heapEnd = hs + hsz := rfl
  have hcount : s1.count = ls.length := by
    rw [hct]
    simp [bump_init]
  have hreset := bump_dealloc_n_reset ls.length s1 hcount
  rcases ls with _ | ⟨l, ls⟩
  · simp only [bump_alloc_list, Option.some.injEq, Prod.mk.injEq] at hrun
    obtain ⟨h1, _⟩ := hrun
    subst h1
    refine ⟨rfl, rfl, by decide, by decide⟩
  · have hr2 : bump_dealloc_n (l :: ls).length s1 =
        { s1 with count := 0, next := s1.start } := by
      rw [List.length_cons] at hreset ⊢
      rw [hreset, if_neg (Nat.succ_ne_zero _)]
    rw [hr2]
    constructor
    · simp [hst, hst0]
    · refine ⟨bump_allocate_fst_congr ?_ ?_ ?_, by decide, by decide⟩
      · simp [hst, hst0]
      · simp [hst, hst0, hne0]
      · simp [hhe, hhe0]

/-- C5 witness: the claim's concrete scenario discharges the hypotheses:
two 8-byte allocations from `[0x1000, 0x2000)` succeed, both are freed, and
the next allocation returns `0x1000` again. -/
theorem c5_bump_generation_reset_witness :
    (0x1000 : Nat) ≠ 0 ∧
      bump_alloc_list [⟨8, 8⟩, ⟨8, 8⟩] (bump_init 0x1000 0x1000) =
        some (⟨0x1000, 0x1010, 0x2000, 2⟩, [0x1000, 0x1008]) ∧
      (bump_dealloc_n 2 ⟨0x1000, 0x1010, 0x2000, 2⟩).next = 0x1000 ∧
      (bump_allocate ⟨8, 8⟩ (bump_dealloc_n 2 ⟨0x1000, 0x1010, 0x2000, 2⟩)).1 =
        (bump_allocate ⟨8, 8⟩ (bump_init 0x1000 0x1000)).1 := by
  refine ⟨by decide, by decide, ?_, ?_⟩
  · exact (c5_bump_generation_reset 0x1000 0x1000 [⟨8, 8⟩, ⟨8, 8⟩] ⟨8, 8⟩
      ⟨0x1000, 0x1010, 0x2000, 2⟩ [0x1000, 0x1008] (by decide) (by decide)).1
  · exact (c5_bump_generation_reset 0x1000 0x1000 [⟨8, 8⟩, ⟨8, 8⟩] ⟨8, 8⟩
      ⟨0x1000, 0x1010, 0x2000, 2⟩ [0x1000, 0x1008] (by decide) (by decide)).2.1

/-- C3 counterexample: deallocate frame 5 then frame 4; frame 4 extends the
stored range at its start, so the next allocation returns 5, not the most
recently deallocated frame 4. -/
theorem c3_lifo_counterexample :
    (ufa_allocate_frame (ufa_deallocate_frame 4 (ufa_deallocate_frame 5 ⟨[99], []⟩))).1 =
        some 5 ∧
      ¬ (ufa_allocate_frame (ufa_deallocate_frame 4 (ufa_deallocate_frame 5 ⟨[99], []⟩))).1 =
        some 4 := by
  refine ⟨by decide, by decide⟩

/-- C3 (amended): allocations are served from the deallocated pool first —
when the pool is nonempty the allocator returns the tail frame of the most
recently stored range and never touches the backing allocator — and
delegates to the backing allocator only when the pool is empty;
`deallocate(f)` extends the last stored range by one frame at either end
when `f` is adjacent to it, and otherwise pushes a new single-frame range. -/
theorem c3_user_frame_allocator :
    (∀ (a : UFA) (s e : Nat) (rest : List (Nat × Nat)), a.free = (s, e) :: rest →
        (ufa_allocate_frame a).1 = some e ∧ (ufa_allocate_frame a).2.backing = a.backing) ∧
      (∀ a : UFA, a.free = [] →
        ufa_allocate_frame a =
          match a.backing with
          | b :: rest => (some b, { a with backing := rest })
          | [] => (none, a)) ∧
      (∀ (a : UFA) (f s e : Nat) (rest : List (Nat × Nat)), a.free = (s, e) :: rest →
        (ufa_deallocate_frame f a).free =
          if f - 1 = e then (s, f) :: rest
          else if f + 1 = s then (f, e) :: rest
          else (f, f) :: (s, e) :: rest) ∧
      (∀ (a : UFA) (f : Nat), a.free = [] → (ufa_deallocate_frame f a).free = [(f, f)]) := by
  refine ⟨?_, ?_, ?_, ?_⟩
  · intro a s e rest hfree
    unfold ufa_allocate_frame ufa_pop
    rw [hfree]
    by_cases hse : s > e - 1
    · simp [hse]
    · simp [hse]
  · intro a hfree
    unfold ufa_allocate_frame ufa_pop
    rw [hfree]
  · intro a f s e rest hfree
    unfold ufa_deallocate_frame ufa_push
    rw [hfree]
    by_cases h1 : f - 1 = e
    · simp [h1]
    · by_cases h2 : f + 1 = s
      · simp [h1, h2]
      · simp [h1, h2]
  · intro a f hfree
    unfold ufa_deallocate_frame ufa_push
    rw [hfree]

/-- C3 witness: a pool holding the range 2..=5 over a backing allocator
holding frame 7: allocation returns 5 from the pool and leaves the backing
untouched. -/
theorem c3_user_frame_allocator_witness :
    (UFA.mk [7] [(2, 5)]).free = (2, 5) :: [] ∧
      (ufa_allocate_frame (UFA.mk [7] [(2, 5)])).1 = some 5 ∧
      (ufa_allocate_frame (UFA.mk [7] [(2, 5)])).2.backing = [7] :=
  ⟨rfl, (c3_user_frame_allocator.1 (UFA.mk [7] [(2, 5)]) 2 5 [] rfl).1,
    (c3_user_frame_allocator.1 (UFA.mk [7] [(2, 5)]) 2 5 [] rfl).2⟩

/-! ## Supporting lemmas: UTF-8 -/

/-- Unfold one accepted byte of the validation run. -/
theorem utf8Run_step {s s1 : Utf8State} {b : Nat} (t : List Nat)
    (h : utf8Next s b = some s1) : utf8Run s (b :: t) = utf8Run s1 t := by
  simp only [utf8Run, h]

/-- A run over a nonempty list accepts only through some next state. -/
theorem utf8Run_cons_inv {s : Utf8State} {b : Nat} {t : List Nat}
    (h : utf8Run s (b :: t) = true) :
    ∃ s1, utf8Next s b = some s1 ∧ utf8Run s1 t = true := by
  simp only [utf8Run] at h
  rcases hn : utf8Next s b with _ | s1
  · rw [hn] at h
    exact absurd h (by simp)
  · rw [hn] at h
    exact ⟨s1, rfl, h⟩

/-- A run accepts the empty tail only from the start state. -/
theorem utf8Run_nil_inv {s : Utf8State} (h : utf8Run s [] = true) : s = .start := by
  simpa [utf8Run] using h

theorem utf8Next_start_ascii {b : Nat} (h : b ≤ 0x7F) :
    utf8Next .start b = some .start := by
  unfold utf8Next
  dsimp only
  rw [if_pos h]

theorem utf8Next_start_two {b : Nat} (h : 0xC2 ≤ b ∧ b ≤ 0xDF) :
    utf8Next .start b = some .cont1 := by
  unfold utf8Next
  dsimp only
  rw [if_neg (by omega), if_pos h]

theorem utf8Next_start_e1ec {b : Nat} (h : 0xE1 ≤ b ∧ b ≤ 0xEC) :
    utf8Next .start b = some .cont2 := by
  unfold utf8Next
  dsimp only
  rw [if_neg (by omega), if_neg (by omega), if_neg (by omega), if_pos h]

theorem utf8Next_start_eeef {b : Nat} (h : 0xEE ≤ b ∧ b ≤ 0xEF) :
    utf8Next .start b = some .cont2 := by
  unfold utf8Next
  dsimp only
  rw [if_neg (by omega), if_neg (by omega), if_neg (by omega), if_neg (by omega),
    if_neg (by omega), if_pos h]

theorem utf8Next_start_f1f3 {b : Nat} (h : 0xF1 ≤ b ∧ b ≤ 0xF3) :
    utf8Next .start b = some .cont3 := by
  unfold utf8Next
  dsimp only
  rw [if_neg (by omega), if_neg (by omega), if_neg (by omega), if_neg (by omega),
    if_neg (by omega), if_neg (by omega), if_neg (by omega), if_pos h]

theorem utf8Next_cont1 {b : Nat} (h : 0x80 ≤ b ∧ b ≤ 0xBF) :
    utf8Next .cont1 b = some .start := by
  unfold utf8Next
  dsimp only
  rw [if_pos h]

theorem utf8Next_cont2 {b : Nat} (h : 0x80 ≤ b ∧ b ≤ 0xBF) :
    utf8Next .cont2 b = some .cont1 := by
  unfold utf8Next
  dsimp only
  rw [if_pos h]

theorem utf8Next_cont3 {b : Nat} (h : 0x80 ≤ b ∧ b ≤ 0xBF) :
    utf8Next .cont3 b = some .cont2 := by
  unfold utf8Next
  dsimp only
  rw [if_pos h]

theorem utf8Next_afterE0 {b : Nat} (h : 0xA0 ≤ b ∧ b ≤ 0xBF) :
    utf8Next .afterE0 b = some .cont1 := by
  unfold utf8Next
  dsimp only
  rw [if_pos h]

theorem utf8Next_afterED {b : Nat} (h : 0x80 ≤ b ∧ b ≤ 0x9F) :
    utf8Next .afterED b = some .cont1 := by
  unfold utf8Next
  dsimp only
  rw [if_pos h]

theorem utf8Next_afterF0 {b : Nat} (h : 0x90 ≤ b ∧ b ≤ 0xBF) :
    utf8Next .afterF0 b = some .cont2 := by
  unfold utf8Next
  dsimp only
  rw [if_pos h]

theorem utf8Next_afterF4 {b : Nat} (h : 0x80 ≤ b ∧ b ≤ 0x8F) :
    utf8Next .afterF4 b = some .cont2 := by
  unfold utf8Next
  dsimp only
  rw [if_pos h]

/-- The encoding of any sequence of scalar values passes the validation. -/
theorem utf8_complete : ∀ cs : List Nat, (∀ c ∈ cs, isScalar c) →
    utf8Valid (encodeUtf8 cs) = true
  | [], _ => rfl
  | c :: cs, h => by
    obtain ⟨hlt, hsur⟩ := h c (List.mem_cons_self ..)
    have hcs := utf8_complete cs fun x hx => h x (List.mem_cons_of_mem _ hx)
    rw [encodeUtf8, List.map_cons, List.flatten_cons]
    rw [encodeUtf8] at hcs
    rw [utf8Valid] at hcs ⊢
    by_cases h1 : c < 0x80
    · rw [encodeChar, if_pos h1, List.cons_append, List.nil_append]
      rw [utf8Run_step _ (utf8Next_start_ascii (by omega))]
      exact hcs
    · by_cases h2 : c < 0x800
      · rw [encodeChar, if_neg h1, if_pos h2]
        simp only [List.cons_append, List.nil_append]
        rw [utf8Run_step _ (utf8Next_start_two ⟨by omega, by omega⟩)]
        rw [utf8Run_step _ (utf8Next_cont1 ⟨by omega, by omega⟩)]
        exact hcs
      · by_cases h3 : c < 0x10000
        · rw [encodeChar, if_neg h1, if_neg h2, if_pos h3]
          simp only [List.cons_append, List.nil_append]
          by_cases he0 : c < 0x1000
          · rw [show (0xE0 + c / 4096 : Nat) = 0xE0 from by omega]
            rw [utf8Run_step _ (show utf8Next .start 0xE0 = some .afterE0 from rfl)]
            rw [utf8Run_step _ (utf8Next_afterE0 ⟨by omega, by omega⟩)]
            rw [utf8Run_step _ (utf8Next_cont1 ⟨by omega, by omega⟩)]
            exact hcs
          · by_cases hec : c < 0xD000
            · rw [utf8Run_step _ (utf8Next_start_e1ec ⟨by omega, by omega⟩)]
              rw [utf8Run_step _ (utf8Next_cont2 ⟨by omega, by omega⟩)]
              rw [utf8Run_step _ (utf8Next_cont1 ⟨by omega, by omega⟩)]
              exact hcs
            · have hed : c < 0xD800 ∨ 0xDFFF < c := by
                rcases Nat.lt_or_ge c 0xD800 with hx | hx
                · exact Or.inl hx
                · right
                  by_contra hy
                  exact hsur ⟨hx, by omega⟩
              by_cases hsm : c < 0xE000
              · rw [show (0xE0 + c / 4096 : Nat) = 0xED from by omega]
                rw [utf8Run_step _ (show utf8Next .start 0xED = some .afterED from rfl)]
                rw [utf8Run_step _ (utf8Next_afterED ⟨by omega, by omega⟩)]
                rw [utf8Run_step _ (utf8Next_cont1 ⟨by omega, by omega⟩)]
                exact hcs
              · rw [utf8Run_step _ (utf8Next_start_eeef ⟨by omega, by omega⟩)]
                rw [utf8Run_step _ (utf8Next_cont2 ⟨by omega, by omega⟩)]
                rw [utf8Run_step _ (utf8Next_cont1 ⟨by omega, by omega⟩)]
                exact hcs
        · rw [encodeChar, if_neg h1, if_neg h2, if_neg h3]
          simp only [List.cons_append, List.nil_append]
          by_cases hf0 : c < 0x40000
          · rw [show (0xF0 + c / 262144 : Nat) = 0xF0 from by omega]
            rw [utf8Run_step _ (show utf8Next .start 0xF0 = some .afterF0 from rfl)]
            rw [utf8Run_step _ (utf8Next_afterF0 ⟨by omega, by omega⟩)]
            rw [utf8Run_step _ (utf8Next_cont2 ⟨by omega, by omega⟩)]
            rw [utf8Run_step _ (utf8Next_cont1 ⟨by omega, by omega⟩)]
            exact hcs
          · by_cases hf13 : c < 0x100000
            · rw [utf8Run_step _ (utf8Next_start_f1f3 ⟨by omega, by omega⟩)]
              rw [utf8Run_step _ (utf8Next_cont3 ⟨by omega, by omega⟩)]
              rw [utf8Run_step _ (utf8Next_cont2 ⟨by omega, by omega⟩)]
              rw [utf8Run_step _ (utf8Next_cont1 ⟨by omega, by omega⟩)]
              exact hcs
            · rw [show (0xF0 + c / 262144 : Nat) = 0xF4 from by omega]
              rw [utf8Run_step _ (show utf8Next .start 0xF4 = some .afterF4 from rfl)]
              rw [utf8Run_step _ (utf8Next_afterF4 ⟨by omega, by omega⟩)]
              rw [utf8Run_step _ (utf8Next_cont2 ⟨by omega, by omega⟩)]
              rw [utf8Run_step _ (utf8Next_cont1 ⟨by omega, by omega⟩)]
              exact hcs

theorem utf8Next_start_inv {b : Nat} {s1 : Utf8State} (h : utf8Next .start b = some s1) :
    (s1 = .start ∧ b ≤ 0x7F) ∨
      (s1 = .cont1 ∧ 0xC2 ≤ b ∧ b ≤ 0xDF) ∨
      (s1 = .afterE0 ∧ b = 0xE0) ∨
      (s1 = .cont2 ∧ ((0xE1 ≤ b ∧ b ≤ 0xEC) ∨ (0xEE ≤ b ∧ b ≤ 0xEF))) ∨
      (s1 = .afterED ∧ b = 0xED) ∨
      (s1 = .afterF0 ∧ b = 0xF0) ∨
      (s1 = .cont3 ∧ 0xF1 ≤ b ∧ b ≤ 0xF3) ∨
      (s1 = .afterF4 ∧ b = 0xF4) := by
  unfold utf8Next at h
  dsimp only at h
  by_cases h1 : b ≤ 0x7F
  · rw [if_pos h1] at h
    exact Or.inl ⟨(Option.some.inj h).symm, h1⟩
  · rw [if_neg h1] at h
    by_cases h2 : 0xC2 ≤ b ∧ b ≤ 0xDF
    · rw [if_pos h2] at h
      exact Or.inr (Or.inl ⟨(Option.some.inj h).symm, h2⟩)
    · rw [if_neg h2] at h
      by_cases h3 : b = 0xE0
      · rw [if_pos h3] at h
        exact Or.inr (Or.inr (Or.inl ⟨(Option.some.inj h).symm, h3⟩))
      · rw [if_neg h3] at h
        by_cases h4 : 0xE1 ≤ b ∧ b ≤ 0xEC
        · rw [if_pos h4] at h
          exact Or.inr (Or.inr (Or.inr (Or.inl ⟨(Option.some.inj h).symm, Or.inl h4⟩)))
        · rw [if_neg h4] at h
          by_cases h5 : b = 0xED
          · rw [if_pos h5] at h
            exact Or.inr (Or.inr (Or.inr (Or.inr (Or.inl
              ⟨(Option.some.inj h).symm, h5⟩))))
          · rw [if_neg h5] at h
            by_cases h6 : 0xEE ≤ b ∧ b ≤ 0xEF
            · rw [if_pos h6] at h
              exact Or.inr (Or.inr (Or.inr (Or.inl ⟨(Option.some.inj h).symm, Or.inr h6⟩)))
            · rw [if_neg h6] at h
              by_cases h7 : b = 0xF0
              · rw [if_pos h7] at h
                exact Or.inr (Or.inr (Or.inr (Or.inr (Or.inr (Or.inl
                  ⟨(Option.some.inj h).symm, h7⟩)))))
              · rw [if_neg h7] at h
                by_cases h8 : 0xF1 ≤ b ∧ b ≤ 0xF3
                · rw [if_pos h8] at h
                  exact Or.inr (Or.inr (Or.inr (Or.inr (Or.inr (Or.inr (Or.inl
                    ⟨(Option.some.inj h).symm, h8⟩))))))
                · rw [if_neg h8] at h
                  by_cases h9 : b = 0xF4
                  · rw [if_pos h9] at h
                    exact Or.inr (Or.inr (Or.inr (Or.inr (Or.inr (Or.inr (Or.inr
                      ⟨(Option.some.inj h).symm, h9⟩))))))
                  · rw [if_neg h9] at h
                    exact absurd h (by simp)

theorem utf8Next_if_inv {b : Nat} {lo hi : Nat} {s1 s2 : Utf8State}
    (h : (if lo ≤ b ∧ b ≤ hi then some s2 else none) = some s1) :
    s1 = s2 ∧ lo ≤ b ∧ b ≤ hi := by
  by_cases hc : lo ≤ b ∧ b ≤ hi
  · rw [if_pos hc] at h
    exact ⟨(Option.some.inj h).symm, hc⟩
  · rw [if_neg hc] at h
    exact absurd h (by simp)

/-- Accepting from the plain-continuation state consumes one continuation
byte and returns to the start state. -/
theorem utf8Run_cont1_inv {l : List Nat} (h : utf8Run .cont1 l = true) :
    ∃ c t, l = c :: t ∧ (0x80 ≤ c ∧ c ≤ 0xBF) ∧ utf8Run .start t = true := by
  rcases l with _ | ⟨c, t⟩
  · exact absurd (utf8Run_nil_inv h) (by decide)
  · obtain ⟨s1, hn, hr⟩ := utf8Run_cons_inv h
    obtain ⟨hs, hc⟩ := utf8Next_if_inv hn
    subst hs
    exact ⟨c, t, rfl, hc, hr⟩

theorem utf8Run_cont2_inv {l : List Nat} (h : utf8Run .cont2 l = true) :
    ∃ c1 c2 t, l = c1 :: c2 :: t ∧ (0x80 ≤ c1 ∧ c1 ≤ 0xBF) ∧ (0x80 ≤ c2 ∧ c2 ≤ 0xBF) ∧
      utf8Run .start t = true := by
  rcases l with _ | ⟨c1, l1⟩
  · exact absurd (utf8Run_nil_inv h) (by decide)
  · obtain ⟨s1, hn, hr⟩ := utf8Run_cons_inv h
    obtain ⟨hs, hc⟩ := utf8Next_if_inv hn
    subst hs
    obtain ⟨c2, t, hl, hc2, hrt⟩ := utf8Run_cont1_inv hr
    subst hl
    exact ⟨c1, c2, t, rfl, hc, hc2, hrt⟩

theorem utf8Run_cont3_inv {l : List Nat} (h : utf8Run .cont3 l = true) :
    ∃ c1 c2 c3 t, l = c1 :: c2 :: c3 :: t ∧ (0x80 ≤ c1 ∧ c1 ≤ 0xBF) ∧
      (0x80 ≤ c2 ∧ c2 ≤ 0xBF) ∧ (0x80 ≤ c3 ∧ c3 ≤ 0xBF) ∧ utf8Run .start t = true := by
  rcases l with _ | ⟨c1, l1⟩
  · exact absurd (utf8Run_nil_inv h) (by decide)
  · obtain ⟨s1, hn, hr⟩ := utf8Run_cons_inv h
    obtain ⟨hs, hc⟩ := utf8Next_if_inv hn
    subst hs
    obtain ⟨c2, c3, t, hl, hc2, hc3, hrt⟩ := utf8Run_cont2_inv hr
    subst hl
    exact ⟨c1, c2, c3, t, rfl, hc, hc2, hc3, hrt⟩

theorem utf8Run_afterE0_inv {l : List Nat} (h : utf8Run .afterE0 l = true) :
    ∃ c1 c2 t, l = c1 :: c2 :: t ∧ (0xA0 ≤ c1 ∧ c1 ≤ 0xBF) ∧ (0x80 ≤ c2 ∧ c2 ≤ 0xBF) ∧
      utf8Run .start t = true := by
  rcases l with _ | ⟨c1, l1⟩
  · exact absurd (utf8Run_nil_inv h) (by decide)
  · obtain ⟨s1, hn, hr⟩ := utf8Run_cons_inv h
    obtain ⟨hs, hc⟩ := utf8Next_if_inv hn
    subst hs
    obtain ⟨c2, t, hl, hc2, hrt⟩ := utf8Run_cont1_inv hr
    subst hl
    exact ⟨c1, c2, t, rfl, hc, hc2, hrt⟩

theorem utf8Run_afterED_inv {l : List Nat} (h : utf8Run .afterED l = true) :
    ∃ c1 c2 t, l = c1 :: c2 :: t ∧ (0x80 ≤ c1 ∧ c1 ≤ 0x9F) ∧ (0x80 ≤ c2 ∧ c2 ≤ 0xBF) ∧
      utf8Run .start t = true := by
  rcases l with _ | ⟨c1, l1⟩
  · exact absurd (utf8Run_nil_inv h) (by decide)
  · obtain ⟨s1, hn, hr⟩ := utf8Run_cons_inv h
    obtain ⟨hs, hc⟩ := utf8Next_if_inv hn
    subst hs
    obtain ⟨c2, t, hl, hc2, hrt⟩ := utf8Run_cont1_inv hr
    subst hl
    exact ⟨c1, c2, t, rfl, hc, hc2, hrt⟩

theorem utf8Run_afterF0_inv {l : List Nat} (h : utf8Run .afterF0 l = true) :
    ∃ c1 c2 c3 t, l = c1 :: c2 :: c3 :: t ∧ (0x90 ≤ c1 ∧ c1 ≤ 0xBF) ∧
      (0x80 ≤ c2 ∧ c2 ≤ 0xBF) ∧ (0x80 ≤ c3 ∧ c3 ≤ 0xBF) ∧ utf8Run .start t = true := by
  rcases l with _ | ⟨c1, l1⟩
  · exact absurd (utf8Run_nil_inv h) (by decide)
  · obtain ⟨s1, hn, hr⟩ := utf8Run_cons_inv h
    obtain ⟨hs, hc⟩ := utf8Next_if_inv hn
    subst hs
    obtain ⟨c2, c3, t, hl, hc2, hc3, hrt⟩ := utf8Run_cont2_inv hr
    subst hl
    exact ⟨c1, c2, c3, t, rfl, hc, hc2, hc3, hrt⟩

theorem utf8Run_afterF4_inv {l : List Nat} (h : utf8Run .afterF4 l = true) :
    ∃ c1 c2 c3 t, l = c1 :: c2 :: c3 :: t ∧ (0x80 ≤ c1 ∧ c1 ≤ 0x8F) ∧
      (0x80 ≤ c2 ∧ c2 ≤ 0xBF) ∧ (0x80 ≤ c3 ∧ c3 ≤ 0xBF) ∧ utf8Run .start t = true := by
  rcases l with _ | ⟨c1, l1⟩
  · exact absurd (utf8Run_nil_inv h) (by decide)
  · obtain ⟨s1, hn, hr⟩ := utf8Run_cons_inv h
    obtain ⟨hs, hc⟩ := utf8Next_if_inv hn
    subst hs
    obtain ⟨c2, c3, t, hl, hc2, hc3, hrt⟩ := utf8Run_cont2_inv hr
    subst hl
    exact ⟨c1, c2, c3, t, rfl, hc, hc2, hc3, hrt⟩

set_option maxRecDepth 4096 in
/-- Every validated byte sequence is the encoding of a sequence of scalar
values. -/
theorem utf8_sound : ∀ (n : Nat) (bs : List Nat), bs.length ≤ n → utf8Valid bs = true →
    ∃ cs, (∀ c ∈ cs, isScalar c) ∧ encodeUtf8 cs = bs := by
  intro n
  induction n with
  | zero =>
    intro bs hlen hv
    have hnil : bs = [] := List.length_eq_zero.mp (Nat.le_zero.mp hlen)
    subst hnil
    exact ⟨[], by simp, rfl⟩
  | succ n ih =>
    intro bs hlen hv
    rcases bs with _ | ⟨b, rest⟩
    · exact ⟨[], by simp, rfl⟩
    · rw [utf8Valid] at hv
      obtain ⟨s1, hn, hr⟩ := utf8Run_cons_inv hv
      simp only [List.length_cons] at hlen
      rcases utf8Next_start_inv hn with ⟨hs, hb⟩ | ⟨hs, hb⟩ | ⟨hs, hb⟩ | ⟨hs, hb⟩ |
        ⟨hs, hb⟩ | ⟨hs, hb⟩ | ⟨hs, hb⟩ | ⟨hs, hb⟩
      · subst hs
        obtain ⟨cs, hsc, henc⟩ := ih rest (by omega) hr
        refine ⟨b :: cs, ?_, ?_⟩
        · intro x hx
          rcases List.mem_cons.mp hx with hx | hx
          · subst hx
            exact ⟨by omega, by omega⟩
          · exact hsc x hx
        · rw [encodeUtf8, List.map_cons, List.flatten_cons, encodeChar, if_pos (by omega)]
          rw [encodeUtf8] at henc
          rw [henc]
          rfl
      · subst hs
        obtain ⟨c1, t, hl, hc1, hrt⟩ := utf8Run_cont1_inv hr
        subst hl
        simp only [List.length_cons] at hlen
        obtain ⟨cs, hsc, henc⟩ := ih t (by omega) hrt
        refine ⟨((b - 0xC0) * 64 + (c1 - 0x80)) :: cs, ?_, ?_⟩
        · intro x hx
          rcases List.mem_cons.mp hx with hx | hx
          · subst hx
            exact ⟨by omega, by omega⟩
          · exact hsc x hx
        · rw [encodeUtf8, List.map_cons, List.flatten_cons]
          rw [encodeUtf8] at henc
          rw [henc, encodeChar]
          rw [if_neg (by omega), if_pos (by omega)]
          rw [show 0xC0 + ((b - 0xC0) * 64 + (c1 - 0x80)) / 64 = b from by omega]
          rw [show 0x80 + ((b - 0xC0) * 64 + (c1 - 0x80)) % 64 = c1 from by omega]
          rfl
      · subst hs
        subst hb
        obtain ⟨c1, c2, t, hl, hc1, hc2, hrt⟩ := utf8Run_afterE0_inv hr
        subst hl
        simp only [List.length_cons] at hlen
        obtain ⟨cs, hsc, henc⟩ := ih t (by omega) hrt
        refine ⟨((c1 - 0x80) * 64 + (c2 - 0x80)) :: cs, ?_, ?_⟩
        · intro x hx
          rcases List.mem_cons.mp hx with hx | hx
          · subst hx
            exact ⟨by omega, by omega⟩
          · exact hsc x hx
        · rw [encodeUtf8, List.map_cons, List.flatten_cons]
          rw [encodeUtf8] at henc
          rw [henc, encodeChar]
          rw [if_neg (by omega), if_neg (by omega), if_pos (by omega)]
          rw [show 0xE0 + ((c1 - 0x80) * 64 + (c2 - 0x80)) / 4096 = 0xE0 from by omega]
          rw [show 0x80 + ((c1 - 0x80) * 64 + (c2 - 0x80)) / 64 % 64 = c1 from by omega]
          rw [show 0x80 + ((c1 - 0x80) * 64 + (c2 - 0x80)) % 64 = c2 from by omega]
          rfl
      · subst hs
        obtain ⟨c1, c2, t, hl, hc1, hc2, hrt⟩ := utf8Run_cont2_inv hr
        subst hl
        simp only [List.length_cons] at hlen
        obtain ⟨cs, hsc, henc⟩ := ih t (by omega) hrt
        refine ⟨((b - 0xE0) * 4096 + ((c1 - 0x80) * 64 + (c2 - 0x80))) :: cs, ?_, ?_⟩
        · intro x hx
          rcases List.mem_cons.mp hx with hx | hx
          · subst hx
            refine ⟨by rcases hb with he | he <;> omega, by rcases hb with he | he <;> omega⟩
          · exact hsc x hx
        · rw [encodeUtf8, List.map_cons, List.flatten_cons]
          rw [encodeUtf8] at henc
          rw [henc, encodeChar]
          rw [if_neg (by rcases hb with he | he <;> omega),
            if_neg (by rcases hb with he | he <;> omega),
            if_pos (by rcases hb with he | he <;> omega)]
          rw [show 0xE0 + ((b - 0xE0) * 4096 + ((c1 - 0x80) * 64 + (c2 - 0x80))) / 4096 = b
            from by rcases hb with he | he <;> omega]
          rw [show 0x80 + ((b - 0xE0) * 4096 + ((c1 - 0x80) * 64 + (c2 - 0x80))) / 64 % 64 = c1
            from by rcases hb with he | he <;> omega]
          rw [show 0x80 + ((b - 0xE0) * 4096 + ((c1 - 0x80) * 64 + (c2 - 0x80))) % 64 = c2
            from by rcases hb with he | he <;> omega]
          rfl
      · subst hs
        subst hb
        obtain ⟨c1, c2, t, hl, hc1, hc2, hrt⟩ := utf8Run_afterED_inv hr
        subst hl
        simp only [List.length_cons] at hlen
        obtain ⟨cs, hsc, henc⟩ := ih t (by omega) hrt
        refine ⟨(0xD000 + ((c1 - 0x80) * 64 + (c2 - 0x80))) :: cs, ?_, ?_⟩
        · intro x hx
          rcases List.mem_cons.mp hx with hx | hx
          · subst hx
            exact ⟨by omega, by omega⟩
          · exact hsc x hx
        · rw [encodeUtf8, List.map_cons, List.flatten_cons]
          rw [encodeUtf8] at henc
          rw [henc, encodeChar]
          rw [if_neg (by omega), if_neg (by omega), if_pos (by omega)]
          rw [show 0xE0 + (0xD000 + ((c1 - 0x80) * 64 + (c2 - 0x80))) / 4096 = 0xED
            from by omega]
          rw [show 0x80 + (0xD000 + ((c1 - 0x80) * 64 + (c2 - 0x80))) / 64 % 64 = c1
            from by omega]
          rw [show 0x80 + (0xD000 + ((c1 - 0x80) * 64 + (c2 - 0x80))) % 64 = c2 from by omega]
          rfl
      · subst hs
        subst hb
        obtain ⟨c1, c2, c3, t, hl, hc1, hc2, hc3, hrt⟩ := utf8Run_afterF0_inv hr
        subst hl
        simp only [List.length_cons] at hlen
        obtain ⟨cs, hsc, henc⟩ := ih t (by omega) hrt
        refine ⟨((c1 - 0x80) * 4096 + ((c2 - 0x80) * 64 + (c3 - 0x80))) :: cs, ?_, ?_⟩
        · intro x hx
          rcases List.mem_cons.mp hx with hx | hx
          · subst hx
            exact ⟨by omega, by omega⟩
          · exact hsc x hx
        · rw [encodeUtf8, List.map_cons, List.flatten_cons]
          rw [encodeUtf8] at henc
          rw [henc, encodeChar]
          rw [if_neg (by omega), if_neg (by omega), if_neg (by omega)]
          rw [show 0xF0 + ((c1 - 0x80) * 4096 + ((c2 - 0x80) * 64 + (c3 - 0x80))) / 262144 = 0xF0
            from by omega]
          rw [show 0x80 + ((c1 - 0x80) * 4096 + ((c2 - 0x80) * 64 + (c3 - 0x80))) / 4096 % 64 = c1
            from by omega]
          rw [show 0x80 + ((c1 - 0x80) * 4096 + ((c2 - 0x80) * 64 + (c3 - 0x80))) / 64 % 64 = c2
            from by omega]
          rw [show 0x80 + ((c1 - 0x80) * 4096 + ((c2 - 0x80) * 64 + (c3 - 0x80))) % 64 = c3
            from by omega]
          rfl
      · subst hs
        obtain ⟨c1, c2, c3, t, hl, hc1, hc2, hc3, hrt⟩ := utf8Run_cont3_inv hr
        subst hl
        simp only [List.length_cons] at hlen
        obtain ⟨cs, hsc, henc⟩ := ih t (by omega) hrt
        refine ⟨((b - 0xF0) * 262144 + ((c1 - 0x80) * 4096 + ((c2 - 0x80) * 64 + (c3 - 0x80))))
          :: cs, ?_, ?_⟩
        · intro x hx
          rcases List.mem_cons.mp hx with hx | hx
          · subst hx
            exact ⟨by omega, by omega⟩
          · exact hsc x hx
        · rw [encodeUtf8, List.map_cons, List.flatten_cons]
          rw [encodeUtf8] at henc
          rw [henc, encodeChar]
          rw [if_neg (by omega), if_neg (by omega), if_neg (by omega)]
          rw [show 0xF0 + ((b - 0xF0) * 262144 +
              ((c1 - 0x80) * 4096 + ((c2 - 0x80) * 64 + (c3 - 0x80)))) / 262144 = b
            from by omega]
          rw [show 0x80 + ((b - 0xF0) * 262144 +
              ((c1 - 0x80) * 4096 + ((c2 - 0x80) * 64 + (c3 - 0x80)))) / 4096 % 64 = c1
            from by omega]
          rw [show 0x80 + ((b - 0xF0) * 262144 +
              ((c1 - 0x80) * 4096 + ((c2 - 0x80) * 64 + (c3 - 0x80)))) / 64 % 64 = c2
            from by omega]
          rw [show 0x80 + ((b - 0xF0) * 262144 +
              ((c1 - 0x80) * 4096 + ((c2 - 0x80) * 64 + (c3 - 0x80)))) % 64 = c3
            from by omega]
          rfl
      · subst hs
        subst hb
        obtain ⟨c1, c2, c3, t, hl, hc1, hc2, hc3, hrt⟩ := utf8Run_afterF4_inv hr
        subst hl
        simp only [List.length_cons] at hlen
        obtain ⟨cs, hsc, henc⟩ := ih t (by omega) hrt
        refine ⟨(0x100000 + ((c1 - 0x80) * 4096 + ((c2 - 0x80) * 64 + (c3 - 0x80))))
          :: cs, ?_, ?_⟩
        · intro x hx
          rcases List.mem_cons.mp hx with hx | hx
          · subst hx
            exact ⟨by omega, by omega⟩
          · exact hsc x hx
        · rw [encodeUtf8, List.map_cons, List.flatten_cons]
          rw [encodeUtf8] at henc
          rw [henc, encodeChar]
          rw [if_neg (by omega), if_neg (by omega), if_neg (by omega)]
          rw [show 0xF0 + (0x100000 +
              ((c1 - 0x80) * 4096 + ((c2 - 0x80) * 64 + (c3 - 0x80)))) / 262144 = 0xF4
            from by omega]
          rw [show 0x80 + (0x100000 +
              ((c1 - 0x80) * 4096 + ((c2 - 0x80) * 64 + (c3 - 0x80)))) / 4096 % 64 = c1
            from by omega]
          rw [show 0x80 + (0x100000 +
              ((c1 - 0x80) * 4096 + ((c2 - 0x80) * 64 + (c3 - 0x80)))) / 64 % 64 = c2
            from by omega]
          rw [show 0x80 + (0x100000 +
              ((c1 - 0x80) * 4096 + ((c2 - 0x80) * 64 + (c3 - 0x80)))) % 64 = c3
            from by omega]
          rfl

/-- A byte sequence passes `str::from_utf8` exactly when it is the UTF-8
encoding of some sequence of Unicode scalar values. -/
theorem utf8Valid_iff_encoding (bs : List Nat) :
    utf8Valid bs = true ↔ ∃ cs, (∀ c ∈ cs, isScalar c) ∧ encodeUtf8 cs = bs :=
  ⟨fun h => utf8_sound bs.length bs (le_refl _) h,
    fun ⟨cs, hsc, henc⟩ => henc ▸ utf8_complete cs hsc⟩

/-! ## Supporting lemmas: ELF loader -/

theorem mem_rangeIncl {x a b : Nat} : x ∈ rangeIncl a b ↔ a ≤ x ∧ x ≤ b := by
  unfold rangeIncl
  split
  · simp only [List.not_mem_nil, false_iff]
    omega
  · rw [List.mem_range'_1]
    omega

theorem rangeIncl_nodup (a b : Nat) : (rangeIncl a b).Nodup := by
  unfold rangeIncl
  split
  · exact List.nodup_nil
  · exact List.nodup_range' a (b - a + 1)

theorem rangeIncl_length {a b : Nat} (h : a ≤ b) : (rangeIncl a b).length = b - a + 1 := by
  unfold rangeIncl
  rw [if_neg (by omega), List.length_range']

/-- The zip of two arithmetic ranges, element by element. -/
theorem zip_range'_eq : ∀ (n m s t : Nat),
    (List.range' s n).zip (List.range' t m) =
      (List.range (min n m)).map fun k => (s + k, t + k) := by
  intro n
  induction n with
  | zero =>
    intro m s t
    simp [List.range']
  | succ n ih =>
    intro m s t
    rcases m with _ | m
    · simp [List.range']
    · rw [List.range'_succ, List.range'_succ, List.zip_cons_cons, ih m (s + 1) (t + 1)]
      rw [show min (n + 1) (m + 1) = min n m + 1 from by omega]
      rw [List.range_succ_eq_map, List.map_cons, List.map_map]
      refine List.cons_eq_cons.mpr ⟨by simp, ?_⟩
      apply List.map_congr_left
      intro k hk
      simp only [Function.comp_apply, Nat.succ_eq_add_one, Prod.mk.injEq]
      omega

/-- Membership in the zip of two inclusive ranges. -/
theorem mem_zip_rangeIncl {pS pE fS fE p f : Nat} :
    (p, f) ∈ (rangeIncl pS pE).zip (rangeIncl fS fE) ↔
      ∃ k, p = pS + k ∧ f = fS + k ∧ pS + k ≤ pE ∧ fS + k ≤ fE := by
  unfold rangeIncl
  by_cases hp : pE < pS
  · rw [if_pos hp]
    simp only [List.zip_nil_left, List.not_mem_nil, false_iff, not_exists]
    intro k hk
    omega
  · rw [if_neg hp]
    by_cases hf : fE < fS
    · rw [if_pos hf]
      simp only [List.zip_nil_right, List.not_mem_nil, false_iff, not_exists]
      intro k hk
      omega
    · rw [if_neg hf, zip_range'_eq]
      simp only [List.mem_map, List.mem_range]
      constructor
      · rintro ⟨k, hk, heq⟩
        rw [Prod.mk.injEq] at heq
        exact ⟨k, heq.1.symm, heq.2.symm, by omega, by omega⟩
      · rintro ⟨k, hpk, hfk, hbp, hbf⟩
        exact ⟨k, by omega, by rw [hpk, hfk]⟩

/-- Element `k` of the zip of a range with an arbitrary frame list. -/
theorem zip_range'_list_getD : ∀ (l : List Nat) (n s k : Nat), k < n → k < l.length →
    (s + k, l.getD k 0) ∈ (List.range' s n).zip l := by
  intro l
  induction l with
  | nil =>
    intro n s k _ h
    simp at h
  | cons a l ih =>
    intro n s k hk hl
    rcases n with _ | n
    · omega
    · rw [List.range'_succ, List.zip_cons_cons]
      rcases k with _ | k
      · rw [Nat.add_zero, List.getD_cons_zero]
        exact List.mem_cons_self ..
      · rw [List.getD_cons_succ]
        refine List.mem_cons_of_mem _ ?_
        rw [show s + (k + 1) = (s + 1) + k from by omega]
        exact ih n (s + 1) k (by omega) (by simp only [List.length_cons] at hl; omega)

/-- Reading a list back out of a range by index. -/
theorem map_getD_range' : ∀ (l : List Nat) (n s : Nat), n ≤ l.length →
    (List.range' s n).map (fun p => l.getD (p - s) 0) = l.take n := by
  intro l
  induction l with
  | nil =>
    intro n s h
    have hn : n = 0 := by
      simp only [List.length_nil, Nat.le_zero] at h
      exact h
    subst hn
    simp [List.range']
  | cons a l ih =>
    intro n s h
    rcases n with _ | n
    · simp [List.range']
    · rw [List.range'_succ, List.map_cons, List.take_succ_cons]
      refine List.cons_eq_cons.mpr ⟨?_, ?_⟩
      · rw [Nat.sub_self, List.getD_cons_zero]
      · rw [List.map_congr_left (g := fun p => l.getD (p - (s + 1)) 0) ?_]
        · exact ih n (s + 1) (by simp only [List.length_cons] at h; omega)
        · intro p hp
          rw [List.mem_range'_1] at hp
          rw [show p - s = (p - (s + 1)) + 1 from by omega, List.getD_cons_succ]

/-- `mapPages` on fresh distinct pages: inserts exactly the pairs, touches
nothing else, and leaves memory alone. -/
theorem mapPages_spec : ∀ (pairs : List (Nat × Nat)) (st : Mach),
    (∀ pf ∈ pairs, st.pt pf.1 = none) →
    (pairs.map Prod.fst).Nodup →
    ∃ st1, mapPages st pairs = some st1 ∧
      st1.mem = st.mem ∧
      (∀ q f, (q, f) ∈ pairs → st1.pt q = some f) ∧
      (∀ q, (∀ f, (q, f) ∉ pairs) → st1.pt q = st.pt q)
  | [], st, _, _ => ⟨st, rfl, rfl, by simp, fun q _ => rfl⟩
  | (p, f) :: rest, st, hfree, hnd => by
    have hp := hfree (p, f) (List.mem_cons_self ..)
    simp only [List.map_cons, List.nodup_cons] at hnd
    obtain ⟨hpn, hnd1⟩ := hnd
    have hm : mapTo st p f =
        some { st with pt := fun q => if q = p then some f else st.pt q } := by
      unfold mapTo
      rw [hp]
    set st2 : Mach := { st with pt := fun q => if q = p then some f else st.pt q } with hst2
    have hfree2 : ∀ pf ∈ rest, st2.pt pf.1 = none := by
      intro pf hpf
      have hne : pf.1 ≠ p := by
        intro hc
        exact hpn (List.mem_map.mpr ⟨pf, hpf, hc⟩)
      rw [hst2]
      dsimp only
      rw [if_neg hne]
      exact hfree pf (List.mem_cons_of_mem _ hpf)
    obtain ⟨st3, hrun, hmem, hins, hkeep⟩ := mapPages_spec rest st2 hfree2 hnd1
    refine ⟨st3, ?_, ?_, ?_, ?_⟩
    · simp only [mapPages, hm, Option.some_bind]
      exact hrun
    · exact hmem
    · intro q g hq
      rcases List.mem_cons.mp hq with hq | hq
      · rw [Prod.mk.injEq] at hq
        obtain ⟨hq1, hq2⟩ := hq
        subst hq1
        subst hq2
        have : ∀ g, (q, g) ∉ rest := by
          intro g hg
          exact hpn (List.mem_map.mpr ⟨(q, g), hg, rfl⟩)
        rw [hkeep q this, hst2]
        dsimp only
        rw [if_pos rfl]
      · exact hins q g hq
    · intro q hq
      have hqp : q ≠ p := by
        intro hc
        subst hc
        exact hq f (List.mem_cons_self ..)
      have : ∀ g, (q, g) ∉ rest := fun g hg => hq g (List.mem_cons_of_mem _ hg)
      rw [hkeep q this, hst2]
      dsimp only
      rw [if_neg hqp]

theorem rangeIncl_cons {a b : Nat} (h : a ≤ b) : rangeIncl a b = a :: rangeIncl (a + 1) b := by
  unfold rangeIncl
  rcases Nat.eq_or_lt_of_le h with he | hlt
  · subst he
    rw [if_neg (by omega), if_pos (by omega)]
    rw [show a - a + 1 = 1 from by omega, List.range'_succ]
    rfl
  · rw [if_neg (by omega), if_neg (by omega)]
    rw [show b - a + 1 = (b - (a + 1) + 1) + 1 from by omega, List.range'_succ]

/-- The fresh loop from iteration 1 on: map each page to the next frame of
the allocator and zero that frame in full. -/
theorem freshLoop_tail_spec (physStart physEnd frameEnd : Nat) :
    ∀ (pages : List Nat) (i : Nat) (st : Mach) (alloc : List Nat),
      1 ≤ i →
      pages.Nodup →
      (∀ p ∈ pages, st.pt p = none) →
      pages.length ≤ alloc.length →
      ∃ st1, freshLoop physStart physEnd frameEnd i st alloc pages =
          some (st1, alloc.drop pages.length) ∧
        (∀ q f, (q, f) ∈ pages.zip alloc → st1.pt q = some f) ∧
        (∀ q, q ∉ pages → st1.pt q = st.pt q) ∧
        (∀ x, (∃ f ∈ alloc.take pages.length, f * PS ≤ x ∧ x < f * PS + PS) →
          st1.mem x = 0) ∧
        (∀ x, (∀ f ∈ alloc.take pages.length, x < f * PS ∨ f * PS + PS ≤ x) →
          st1.mem x = st.mem x)
  | [], i, st, alloc, _, _, _, _ =>
    ⟨st, by simp [freshLoop], by simp, fun q _ => rfl, fun x hx => absurd hx (by simp),
      fun x _ => rfl⟩
  | p :: pages, i, st, alloc, hi, hnd, hfree, hlen => by
    rcases alloc with _ | ⟨f, alloc1⟩
    · simp at hlen
    · simp only [List.nodup_cons] at hnd
      obtain ⟨hpn, hnd1⟩ := hnd
      have hp := hfree p (List.mem_cons_self ..)
      have hm : mapTo st p f =
          some { st with pt := fun q => if q = p then some f else st.pt q } := by
        unfold mapTo
        rw [hp]
      set stM : Mach := { st with pt := fun q => if q = p then some f else st.pt q } with hstM
      set st2 : Mach := freshBody physStart physEnd frameEnd i f stM with hst2
      have hpt2 : st2.pt = stM.pt := rfl
      have hmem2 : st2.mem = zeroBytes st.mem (f * PS) PS := by
        rw [hst2]
        unfold freshBody
        dsimp only
        simp only [if_neg (show ¬ i = 0 by omega)]
        simp
      have hfree2 : ∀ q ∈ pages, st2.pt q = none := by
        intro q hq
        rw [hpt2, hstM]
        dsimp only
        rw [if_neg (show q ≠ p from fun hc => hpn (hc ▸ hq))]
        exact hfree q (List.mem_cons_of_mem _ hq)
      simp only [List.length_cons] at hlen
      obtain ⟨st3, hrun, hins, hkeep, hzero, hsame⟩ :=
        freshLoop_tail_spec physStart physEnd frameEnd pages (i + 1) st2 alloc1
          (by omega) hnd1 hfree2 (by omega)
      refine ⟨st3, ?_, ?_, ?_, ?_, ?_⟩
      · simp only [freshLoop, hm, Option.some_bind, List.length_cons, List.drop_succ_cons]
        rw [← hst2]
        exact hrun
      · intro q g hq
        rw [List.zip_cons_cons] at hq
        rcases List.mem_cons.mp hq with hq | hq
        · rw [Prod.mk.injEq] at hq
          obtain ⟨h1, h2⟩ := hq
          subst h1
          subst h2
          rw [hkeep q hpn, hpt2, hstM]
          dsimp only
          rw [if_pos rfl]
        · exact hins q g hq
      · intro q hq
        have hq1 : q ∉ pages := fun hc => hq (List.mem_cons_of_mem _ hc)
        have hq2 : q ≠ p := fun hc => hq (hc ▸ List.mem_cons_self ..)
        rw [hkeep q hq1, hpt2, hstM]
        dsimp only
        rw [if_neg hq2]
      · intro x hx
        simp only [List.length_cons, List.take_succ_cons] at hx
        rcases hx with ⟨g, hg, hgx⟩
        rcases List.mem_cons.mp hg with hg | hg
        · subst hg
          by_cases hlater : ∃ g1 ∈ alloc1.take pages.length, g1 * PS ≤ x ∧ x < g1 * PS + PS
          · exact hzero x hlater
          · rw [hsame x ?_]
            · rw [hmem2]
              unfold zeroBytes
              rw [if_pos ⟨hgx.1, hgx.2⟩]
            · intro g1 hg1
              rcases Nat.lt_or_ge x (g1 * PS) with hc | hc
              · exact Or.inl hc
              · rcases Nat.lt_or_ge x (g1 * PS + PS) with hc2 | hc2
                · exact absurd ⟨g1, hg1, hc, hc2⟩ hlater
                · exact Or.inr hc2
        · exact hzero x ⟨g, hg, hgx⟩
      · intro x hx
        simp only [List.length_cons, List.take_succ_cons] at hx
        have hxf := hx f (List.mem_cons_self ..)
        rw [hsame x (fun g hg => hx g (List.mem_cons_of_mem _ hg)), hmem2]
        unfold zeroBytes
        rw [if_neg (by omega)]

theorem rangeIncl_length_eq (a b : Nat) : (rangeIncl a b).length = b + 1 - a := by
  unfold rangeIncl
  split
  · simp only [List.length_nil]
    omega
  · rw [List.length_range']
    omega

theorem getD_mem_take : ∀ (l : List Nat) (n k : Nat), k < n → k < l.length →
    l.getD k 0 ∈ l.take n
  | [], _, k, _, hl => absurd hl (by simp)
  | _ :: _, 0, _, hk, _ => absurd hk (by omega)
  | a :: l, n + 1, 0, _, _ => by simp
  | a :: l, n + 1, k + 1, hk, hl => by
    simp only [List.getD_cons_succ, List.take_succ_cons, List.mem_cons]
    exact Or.inr (getD_mem_take l n k (by omega) (by simpa using hl))

theorem frame_disjoint {f g x : Nat} (hne : g ≠ f) (h1 : f * PS ≤ x)
    (h2 : x < f * PS + PS) : x < g * PS ∨ g * PS + PS ≤ x := by
  simp only [PS] at *
  omega

/-- One full run of the fresh-frame loop from iteration 0 on a nonempty
page list: the first fresh frame receives the remaining file-backed bytes
at their in-page offset and zeros after them; every later fresh frame is
zeroed in full; memory outside the fresh frames is untouched. -/
theorem freshLoop_head_spec (physStart physEnd frameEnd p0 : Nat)
    (pages : List Nat) (st : Mach) (f0 : Nat) (alloc1 : List Nat)
    (hoc : max physStart (frameEnd * PS) % PS +
      (physEnd - max physStart (frameEnd * PS) + 1) ≤ PS)
    (hnd : (p0 :: pages).Nodup)
    (hfree : ∀ p ∈ p0 :: pages, st.pt p = none)
    (hlen : pages.length ≤ alloc1.length)
    (hfnd : ((f0 :: alloc1).take (pages.length + 1)).Nodup) :
    ∃ st1, freshLoop physStart physEnd frameEnd 0 st (f0 :: alloc1) (p0 :: pages) =
        some (st1, alloc1.drop pages.length) ∧
      (∀ q f, (q, f) ∈ (p0 :: pages).zip (f0 :: alloc1) → st1.pt q = some f) ∧
      (∀ q, q ∉ p0 :: pages → st1.pt q = st.pt q) ∧
      (∀ x, max physStart (frameEnd * PS) ≤ x → x ≤ physEnd →
        st1.mem (f0 * PS + max physStart (frameEnd * PS) % PS +
          (x - max physStart (frameEnd * PS))) = st.mem x) ∧
      (∀ x, f0 * PS + max physStart (frameEnd * PS) % PS +
          (physEnd - max physStart (frameEnd * PS) + 1) ≤ x → x < f0 * PS + PS →
        st1.mem x = 0) ∧
      (∀ x, (∃ f ∈ alloc1.take pages.length, f * PS ≤ x ∧ x < f * PS + PS) →
        st1.mem x = 0) ∧
      (∀ x, (∀ f ∈ (f0 :: alloc1).take (pages.length + 1),
          x < f * PS ∨ f * PS + PS ≤ x) → st1.mem x = st.mem x) := by
  simp only [List.nodup_cons] at hnd
  obtain ⟨hpn, hnd1⟩ := hnd
  have hp := hfree p0 (List.mem_cons_self ..)
  have hm : mapTo st p0 f0 =
      some { st with pt := fun q => if q = p0 then some f0 else st.pt q } := by
    unfold mapTo
    rw [hp]
  set stM : Mach := { st with pt := fun q => if q = p0 then some f0 else st.pt q } with hstM
  set st2 : Mach := freshBody physStart physEnd frameEnd 0 f0 stM with hst2
  have hpt2 : st2.pt = stM.pt := rfl
  have hmem2 : st2.mem =
      zeroBytes (copyBytes st.mem (max physStart (frameEnd * PS))
          (f0 * PS + max physStart (frameEnd * PS) % PS)
          (physEnd - max physStart (frameEnd * PS) + 1))
        (f0 * PS + (max physStart (frameEnd * PS) % PS +
          (physEnd - max physStart (frameEnd * PS) + 1)))
        (PS - (max physStart (frameEnd * PS) % PS +
          (physEnd - max physStart (frameEnd * PS) + 1))) := rfl
  have hfree2 : ∀ q ∈ pages, st2.pt q = none := by
    intro q hq
    rw [hpt2, hstM]
    dsimp only
    rw [if_neg (show q ≠ p0 from fun hc => hpn (hc ▸ hq))]
    exact hfree q (List.mem_cons_of_mem _ hq)
  obtain ⟨st3, hrun, hins, hkeep, hzero, hsame⟩ :=
    freshLoop_tail_spec physStart physEnd frameEnd pages 1 st2 alloc1
      (le_refl 1) hnd1 hfree2 hlen
  simp only [List.take_succ_cons, List.nodup_cons] at hfnd
  obtain ⟨hf0n, hfnd1⟩ := hfnd
  refine ⟨st3, ?_, ?_, ?_, ?_, ?_, ?_, ?_⟩
  · simp only [freshLoop, hm, Option.some_bind]
    rw [← hst2]
    exact hrun
  · intro q g hq
    rw [List.zip_cons_cons] at hq
    rcases List.mem_cons.mp hq with hq | hq
    · rw [Prod.mk.injEq] at hq
      obtain ⟨h1, h2⟩ := hq
      subst h1
      subst h2
      rw [hkeep q hpn, hpt2, hstM]
      dsimp only
      rw [if_pos rfl]
    · exact hins q g hq
  · intro q hq
    have hq1 : q ∉ pages := fun hc => hq (List.mem_cons_of_mem _ hc)
    have hq2 : q ≠ p0 := fun hc => hq (hc ▸ List.mem_cons_self ..)
    rw [hkeep q hq1, hpt2, hstM]
    dsimp only
    rw [if_neg hq2]
  · intro x hx1 hx2
    have hb1 : f0 * PS ≤ f0 * PS + max physStart (frameEnd * PS) % PS +
        (x - max physStart (frameEnd * PS)) := by omega
    have hb2 : f0 * PS + max physStart (frameEnd * PS) % PS +
        (x - max physStart (frameEnd * PS)) < f0 * PS + PS := by omega
    rw [hsame _ ?_]
    · rw [hmem2]
      unfold zeroBytes copyBytes
      rw [if_neg (by omega), if_pos (by omega)]
      congr 1
      omega
    · intro g hg
      exact frame_disjoint (show g ≠ f0 from fun hc => hf0n (hc ▸ hg)) hb1 hb2
  · intro x hx1 hx2
    rw [hsame _ ?_]
    · rw [hmem2]
      unfold zeroBytes
      rw [if_pos (by omega)]
    · intro g hg
      exact frame_disjoint (show g ≠ f0 from fun hc => hf0n (hc ▸ hg)) (by omega) hx2
  · exact hzero
  · intro x hx
    simp only [List.take_succ_cons] at hx
    have hxf0 := hx f0 (List.mem_cons_self ..)
    rw [hsame x (fun g hg => hx g (List.mem_cons_of_mem _ hg)), hmem2]
    unfold zeroBytes copyBytes
    rw [if_neg (by omega), if_neg (by omega)]

/-- Unmapping a list of distinct mapped pages succeeds, clears exactly
those entries and leaves memory and the rest of the table alone. -/
theorem unmapPages_spec : ∀ (pages : List Nat) (st : Mach),
    pages.Nodup →
    (∀ p ∈ pages, ∃ f, st.pt p = some f) →
    ∃ st1, unmapPages st pages = some st1 ∧
      st1.mem = st.mem ∧
      (∀ q ∈ pages, st1.pt q = none) ∧
      (∀ q, q ∉ pages → st1.pt q = st.pt q)
  | [], st, _, _ => ⟨st, rfl, rfl, by simp, fun q _ => rfl⟩
  | p :: pages, st, hnd, hpt => by
    simp only [List.nodup_cons] at hnd
    obtain ⟨hpn, hnd1⟩ := hnd
    obtain ⟨f, hf⟩ := hpt p (List.mem_cons_self ..)
    have hu : unmapPage st p =
        some ({ st with pt := fun q => if q = p then none else st.pt q }, f) := by
      unfold unmapPage
      rw [hf]
    set st2 : Mach := { st with pt := fun q => if q = p then none else st.pt q } with hst2
    have hpt2 : ∀ q ∈ pages, ∃ g, st2.pt q = some g := by
      intro q hq
      obtain ⟨g, hg⟩ := hpt q (List.mem_cons_of_mem _ hq)
      refine ⟨g, ?_⟩
      rw [hst2]
      dsimp only
      rw [if_neg (show q ≠ p from fun hc => hpn (hc ▸ hq))]
      exact hg
    obtain ⟨st1, hrun, hmem, hclear, hkeep⟩ := unmapPages_spec pages st2 hnd1 hpt2
    refine ⟨st1, ?_, hmem, ?_, ?_⟩
    · simp only [unmapPages, hu, Option.some_bind]
      exact hrun
    · intro q hq
      rcases List.mem_cons.mp hq with hq | hq
      · subst hq
        rw [hkeep _ hpn, hst2]
        dsimp only
        rw [if_pos rfl]
      · exact hclear q hq
    · intro q hq
      rw [hkeep q (fun hc => hq (List.mem_cons_of_mem _ hc)), hst2]
      dsimp only
      rw [if_neg (show q ≠ p from fun hc => hq (hc ▸ List.mem_cons_self ..))]

/-- Unmapping a list of distinct pages mapped according to `F` hands
exactly `pages.map F` to the deallocator in order. -/
theorem unmapDealloc_spec (F : Nat → Nat) : ∀ (pages : List Nat) (st : Mach)
      (freed : List Nat),
    pages.Nodup →
    (∀ p ∈ pages, st.pt p = some (F p)) →
    ∃ st1, unmapDealloc st freed pages = some (st1, freed ++ pages.map F) ∧
      st1.mem = st.mem ∧
      (∀ q ∈ pages, st1.pt q = none) ∧
      (∀ q, q ∉ pages → st1.pt q = st.pt q)
  | [], st, freed, _, _ => ⟨st, by simp [unmapDealloc], rfl, by simp, fun q _ => rfl⟩
  | p :: pages, st, freed, hnd, hpt => by
    simp only [List.nodup_cons] at hnd
    obtain ⟨hpn, hnd1⟩ := hnd
    have hp := hpt p (List.mem_cons_self ..)
    have hu : unmapPage st p =
        some ({ st with pt := fun q => if q = p then none else st.pt q }, F p) := by
      unfold unmapPage
      rw [hp]
    set st2 : Mach := { st with pt := fun q => if q = p then none else st.pt q } with hst2
    have hpt2 : ∀ q ∈ pages, st2.pt q = some (F q) := by
      intro q hq
      rw [hst2]
      dsimp only
      rw [if_neg (show q ≠ p from fun hc => hpn (hc ▸ hq))]
      exact hpt q (List.mem_cons_of_mem _ hq)
    obtain ⟨st1, hrun, hmem, hclear, hkeep⟩ :=
      unmapDealloc_spec F pages st2 (freed ++ [F p]) hnd1 hpt2
    refine ⟨st1, ?_, hmem, ?_, ?_⟩
    · simp only [unmapDealloc, hu, Option.some_bind]
      rw [hrun]
      simp [List.append_assoc]
    · intro q hq
      rcases List.mem_cons.mp hq with hq | hq
      · subst hq
        rw [hkeep _ hpn, hst2]
        dsimp only
        rw [if_pos rfl]
      · exact hclear q hq
    · intro q hq
      rw [hkeep q (fun hc => hq (List.mem_cons_of_mem _ hc)), hst2]
      dsimp only
      rw [if_neg (show q ≠ p from fun hc => hq (hc ▸ List.mem_cons_self ..))]

/-! ## Claim theorems: free-list allocator -/

/-- C6: `alloc(L); free(p, L)` restores the free list verbatim (so in
particular the same hole set modulo merges), provided the sentinel sits
below the heap holes; and the claim's concrete scenario: from the single
hole `[0x2000, 0x1000)`, `alloc({64,8})` returns `0x2000` leaving one hole
at `0x2000 + round_up(64, node_align)` of size
`0x1000 - round_up(64, node_align)`, and `free(0x2000, {64,8})` restores
the single hole `[0x2000, 0x1000)`. -/
theorem c6_free_list_round_trip :
    (∀ (hs hs1 : List Hole) (sA p : Nat) (L : Lyt), llWF hs →
        (∀ h ∈ hs, sA < h.addr) →
        ll_allocate (toNodeLayout L) hs = some (p, hs1) →
        ll_deallocate sA p (toNodeLayout L) hs1 = hs) ∧
      ll_allocate (toNodeLayout ⟨64, 8⟩) [⟨0x2000, 0x1000⟩] =
        some (0x2000, [⟨0x2000 + alignUp 64 NodeAlign, 0x1000 - alignUp 64 NodeAlign⟩]) ∧
      ll_deallocate 1 0x2000 (toNodeLayout ⟨64, 8⟩)
          [⟨0x2000 + alignUp 64 NodeAlign, 0x1000 - alignUp 64 NodeAlign⟩] =
        [⟨0x2000, 0x1000⟩] := by
  refine ⟨?_, by decide, by decide⟩
  intro hs hs1 sA p L hwf hb hall
  have hnl : 1 ≤ (toNodeLayout L).size := le_trans (by decide) (toNodeLayout_size L)
  unfold ll_deallocate ll_push
  rw [ll_alloc_push_round_trip hnl hs sA p hs1 hwf hb hall]

/-- C6 witness: the concrete scenario instantiates the round-trip. -/
theorem c6_free_list_round_trip_witness :
    llWF [(⟨0x2000, 0x1000⟩ : Hole)] ∧
      (∀ h ∈ [(⟨0x2000, 0x1000⟩ : Hole)], 1 < h.addr) ∧
      ll_deallocate 1 0x2000 (toNodeLayout ⟨64, 8⟩) [⟨0x2040, 0xFC0⟩] =
        [⟨0x2000, 0x1000⟩] :=
  ⟨by decide, by decide,
    c6_free_list_round_trip.1 [⟨0x2000, 0x1000⟩] [⟨0x2040, 0xFC0⟩] 1 0x2000 ⟨64, 8⟩
      (by decide) (by decide) (by decide)⟩

/-- C7: `init`, `allocate`, `deallocate` and `reallocate` all preserve the
free-list invariant (strictly address-sorted, no two holes overlapping or
adjacent), whenever the freed or reallocated block is disjoint from the
current holes and not adjacent to the sentinel node, and every hole is
nonempty. -/
theorem c7_free_list_invariant :
    (∀ (sA heapStart heapSize : Nat) (hs : List Hole), llWF hs →
        disjointFrom heapStart heapSize hs → (∀ h ∈ hs, 1 ≤ h.size) →
        1 ≤ heapSize → sA ≠ heapStart →
        llWF (ll_init sA heapStart heapSize hs)) ∧
      (∀ (L : Lyt) (hs : List Hole) (p : Nat) (hs1 : List Hole), llWF hs →
        ll_allocate (toNodeLayout L) hs = some (p, hs1) → llWF hs1) ∧
      (∀ (sA addr : Nat) (L : Lyt) (hs : List Hole), llWF hs →
        disjointFrom addr (toNodeLayout L).size hs → (∀ h ∈ hs, 1 ≤ h.size) →
        sA ≠ addr →
        llWF (ll_deallocate sA addr (toNodeLayout L) hs)) ∧
      (∀ (sA addr newSize : Nat) (l : NLayout) (hs : List Hole) (p : Nat) (hs1 : List Hole),
        llWF hs → disjointFrom addr l.size hs → (∀ h ∈ hs, 1 ≤ h.size) →
        1 ≤ l.size → sA ≠ addr →
        ll_reallocate sA addr l newSize hs = some (p, hs1) → llWF hs1) := by
  refine ⟨?_, ?_, ?_, ?_⟩
  · intro sA heapStart heapSize hs hwf hdj hpos hsz hsA
    exact ll_push_wf hwf hdj hpos hsz hsA
  · intro L hs p hs1 hwf hall
    have hnl : 1 ≤ (toNodeLayout L).size := le_trans (by decide) (toNodeLayout_size L)
    exact (ll_allocate_spec hnl hs p hs1 hwf hall).1
  · intro sA addr L hs hwf hdj hpos hsA
    have hnl : 1 ≤ (toNodeLayout L).size := le_trans (by decide) (toNodeLayout_size L)
    exact ll_push_wf hwf hdj hpos hnl hsA
  · intro sA addr newSize l hs p hs1 hwf hdj hpos hlsz hsA hre
    have hnl : 1 ≤ (toNodeLayout ⟨newSize, l.align⟩).size :=
      le_trans (by decide) (toNodeLayout_size _)
    unfold ll_reallocate at hre
    dsimp only at hre
    rcases hfit : fit_alloc ⟨addr, l.size⟩ (toNodeLayout ⟨newSize, l.align⟩) with _ | ⟨b, s, a⟩
    · rw [hfit] at hre
      dsimp only at hre
      rcases hwk : ll_realloc_walk ⟨addr, l.size⟩ (toNodeLayout ⟨newSize, l.align⟩) addr hs with
        _ | ⟨q, hs2⟩
      · rw [hwk] at hre
        dsimp only at hre
        rcases hal : ll_allocate (toNodeLayout ⟨newSize, l.align⟩) hs with _ | ⟨na, hs2⟩
        · rw [hal] at hre
          exact absurd hre (by simp)
        · rw [hal] at hre
          simp only [Option.some.injEq, Prod.mk.injEq] at hre
          obtain ⟨hp, hl⟩ := hre
          subst hl
          obtain ⟨hwf2, hcont, _, hpos2⟩ := ll_allocate_spec hnl hs na hs2 hwf hal
          have hdj2 : disjointFrom addr l.size hs2 := by
            intro x hx
            obtain ⟨hh, hhm, h1, h2⟩ := hcont x hx
            rcases hdj hh hhm with hd | hd
            · left
              omega
            · right
              omega
          exact ll_push_wf hwf2 hdj2 (hpos2 hpos) hlsz hsA
      · rw [hwk] at hre
        simp only [Option.some.injEq, Prod.mk.injEq] at hre
        obtain ⟨hp, hl⟩ := hre
        subst hl
        exact (ll_realloc_walk_wf hnl hlsz hs q hs2 addr hwf hdj hwk).1
    · rcases a with _ | ha
      · rw [hfit] at hre
        dsimp only at hre
        simp only [Option.some.injEq, Prod.mk.injEq] at hre
        obtain ⟨hp, hl⟩ := hre
        subst hl
        exact hwf
      · rw [hfit] at hre
        dsimp only at hre
        rcases hwk : ll_realloc_walk ⟨addr, l.size⟩ (toNodeLayout ⟨newSize, l.align⟩) addr hs with
          _ | ⟨q, hs2⟩
        · rw [hwk] at hre
          dsimp only at hre
          rcases hal : ll_allocate (toNodeLayout ⟨newSize, l.align⟩) hs with _ | ⟨na, hs2⟩
          · rw [hal] at hre
            exact absurd hre (by simp)
          · rw [hal] at hre
            simp only [Option.some.injEq, Prod.mk.injEq] at hre
            obtain ⟨hp, hl⟩ := hre
            subst hl
            obtain ⟨hwf2, hcont, _, hpos2⟩ := ll_allocate_spec hnl hs na hs2 hwf hal
            have hdj2 : disjointFrom addr l.size hs2 := by
              intro x hx
              obtain ⟨hh, hhm, h1, h2⟩ := hcont x hx
              rcases hdj hh hhm with hd | hd
              · left
                omega
              · right
                omega
            exact ll_push_wf hwf2 hdj2 (hpos2 hpos) hlsz hsA
        · rw [hwk] at hre
          simp only [Option.some.injEq, Prod.mk.injEq] at hre
          obtain ⟨hp, hl⟩ := hre
          subst hl
          exact (ll_realloc_walk_wf hnl hlsz hs q hs2 addr hwf hdj hwk).1

/-- C9: the `Log` syscall (code 1) returns RAX = 0 and logs the message
body exactly when the `(rsi, rdx)` buffer is valid UTF-8 — the encoding of
some sequence of Unicode scalar values — and returns RAX = 1 and logs only
a warning, without the message body, otherwise. -/
theorem c9_log_syscall (rsi rdx : Nat) (readMem : Nat → Nat) (fb : Option GopPixelFormat) :
    ((∃ cs, (∀ c ∈ cs, isScalar c) ∧
        encodeUtf8 cs = (List.range rdx).map fun i => readMem (rsi + i)) →
      syscall_step 1 rsi rdx readMem fb =
        (.continueWith 0,
          [.userMessage ((List.range rdx).map fun i => readMem (rsi + i))])) ∧
      ((¬ ∃ cs, (∀ c ∈ cs, isScalar c) ∧
          encodeUtf8 cs = (List.range rdx).map fun i => readMem (rsi + i)) →
        syscall_step 1 rsi rdx readMem fb = (.continueWith 1, [.invalidUtf8Warning])) := by
  constructor
  · intro hv
    have hval : utf8Valid ((List.range rdx).map fun i => readMem (rsi + i)) = true :=
      (utf8Valid_iff_encoding _).mpr hv
    unfold syscall_step
    rw [if_neg (show ¬ (1 : Nat) = 0 by omega), if_pos rfl]
    dsimp only
    rw [if_pos hval]
  · intro hv
    have hval : ¬ utf8Valid ((List.range rdx).map fun i => readMem (rsi + i)) = true :=
      fun hc => hv ((utf8Valid_iff_encoding _).mp hc)
    unfold syscall_step
    rw [if_neg (show ¬ (1 : Nat) = 0 by omega), if_pos rfl]
    dsimp only
    rw [if_neg hval]

/-- C9 witness: the two-byte message `hi` is valid UTF-8, so the dispatcher
returns 0 and logs it. -/
theorem c9_log_syscall_witness :
    (∃ cs, (∀ c ∈ cs, isScalar c) ∧
        encodeUtf8 cs = (List.range 2).map fun i => (fun a => 0x68 + a % 2) (0 + i)) ∧
      syscall_step 1 0 2 (fun a => 0x68 + a % 2) none =
        (.continueWith 0,
          [.userMessage ((List.range 2).map fun i => (fun a => 0x68 + a % 2) (0 + i))]) :=
  ⟨⟨[0x68, 0x69], by decide, by decide⟩,
    (c9_log_syscall 0 2 (fun a => 0x68 + a % 2) none).1
      ⟨[0x68, 0x69], by decide, by decide⟩⟩

/-- C7 witness: the invariant is preserved at the concrete scenario of the
spec — freeing `0x2000` of node-layout size 64 into the list holding only
the hole at `0x2040`. -/
theorem c7_free_list_invariant_witness :
    llWF [(⟨0x2040, 0xFC0⟩ : Hole)] ∧
      disjointFrom 0x2000 (toNodeLayout ⟨64, 8⟩).size [⟨0x2040, 0xFC0⟩] ∧
      (∀ h ∈ [(⟨0x2040, 0xFC0⟩ : Hole)], 1 ≤ h.size) ∧ (1 : Nat) ≠ 0x2000 ∧
      llWF (ll_deallocate 1 0x2000 (toNodeLayout ⟨64, 8⟩) [⟨0x2040, 0xFC0⟩]) :=
  ⟨by decide, by decide, by decide, by decide,
    c7_free_list_invariant.2.2.1 1 0x2000 ⟨64, 8⟩ [⟨0x2040, 0xFC0⟩]
      (by decide) (by decide) (by decide) (by decide)⟩

/-! ## Claim theorems: ELF loader -/

/-- C1: `load_segment` covers the whole virtual range of a `PT_LOAD`
segment: reading the first `file_size` bytes through the page table
returns the ELF file's bytes of the segment, the remaining
`mem_size - file_size` bytes read as zero, and each page holding such a
zero byte is backed by a frame freshly taken from the allocator that is
not a frame of the ELF image itself. -/
theorem c1_load_segment (user : Bool) (elfBase : Nat) (seg : Seg) (pieOff : Nat)
    (st : Mach) (alloc : List Nat) (physStart : Nat)
    (hphys : (if user then translateAddr st.pt (elfBase + seg.off)
      else some (elfBase + seg.off)) = some physStart)
    (hfs : 1 ≤ seg.fileSize) (hfm : seg.fileSize ≤ seg.memSize)
    (hcong : (seg.vaddr + pieOff) % PS = physStart % PS)
    (hvlo : PS ≤ seg.vaddr + pieOff)
    (hunmapped : ∀ p, (seg.vaddr + pieOff) / PS ≤ p →
      p ≤ (seg.vaddr + pieOff + seg.memSize - 1) / PS → st.pt p = none)
    (hlen : freshCount seg pieOff ≤ alloc.length)
    (hfnd : (alloc.take (freshCount seg pieOff)).Nodup)
    (hdisj : ∀ f ∈ alloc.take (freshCount seg pieOff),
      f < physStart / PS ∨ (physStart + seg.fileSize - 1) / PS < f) :
    ∃ st2, load_segment user elfBase seg pieOff st alloc =
        some (st2, alloc.drop (freshCount seg pieOff)) ∧
      (∀ i, i < seg.fileSize →
        readVirt st2 (seg.vaddr + pieOff + i) = some (st.mem (physStart + i))) ∧
      (∀ j, seg.fileSize ≤ j → j < seg.memSize →
        readVirt st2 (seg.vaddr + pieOff + j) = some 0) ∧
      (∀ j, seg.fileSize ≤ j → j < seg.memSize →
        ∃ g, st2.pt ((seg.vaddr + pieOff + j) / PS) = some g ∧
          g ∈ alloc.take (freshCount seg pieOff) ∧
          (g < physStart / PS ∨ (physStart + seg.fileSize - 1) / PS < g)) := by
  have hm0 : ¬ seg.memSize = 0 := by omega
  by_cases hflt : seg.fileSize < seg.memSize
  · have hfc : freshCount seg pieOff =
        (seg.vaddr + pieOff + seg.memSize - 1) / PS -
          (seg.vaddr + pieOff + seg.fileSize - 1) / PS + 1 := by
      unfold freshCount
      rw [if_pos hflt]
    rw [hfc] at hlen hfnd hdisj
    rcases alloc with _ | ⟨f0, alloc1⟩
    · exfalso
      simp only [List.length_nil, PS] at hlen
      omega
    simp only [List.length_cons] at hlen
    simp only [List.take_succ_cons] at hfnd hdisj
    unfold load_segment
    rw [if_neg hm0]
    dsimp only
    rw [hphys]
    simp only [Option.some_bind]
    rw [if_pos hflt, hfc]
    simp only [PS] at hcong hvlo hunmapped hlen hfnd hdisj ⊢
    have hNSPE : (seg.vaddr + pieOff + seg.fileSize - 1) / 4096 ≤
        (seg.vaddr + pieOff + seg.memSize - 1) / 4096 :=
      Nat.div_le_div_right (by omega)
    rw [rangeIncl_cons hNSPE]
    have hrestlen : (rangeIncl ((seg.vaddr + pieOff + seg.fileSize - 1) / 4096 + 1)
        ((seg.vaddr + pieOff + seg.memSize - 1) / 4096)).length =
        (seg.vaddr + pieOff + seg.memSize - 1) / 4096 -
          (seg.vaddr + pieOff + seg.fileSize - 1) / 4096 := by
      rw [rangeIncl_length_eq]
      omega
    have hoc : max physStart ((physStart + seg.fileSize - 1) / 4096 * 4096) % 4096 +
        (physStart + seg.fileSize - 1 -
          max physStart ((physStart + seg.fileSize - 1) / 4096 * 4096) + 1) ≤ 4096 := by
      omega
    have hnd2 : ((seg.vaddr + pieOff + seg.fileSize - 1) / 4096 ::
        rangeIncl ((seg.vaddr + pieOff + seg.fileSize - 1) / 4096 + 1)
          ((seg.vaddr + pieOff + seg.memSize - 1) / 4096)).Nodup := by
      rw [← rangeIncl_cons hNSPE]
      exact rangeIncl_nodup _ _
    have hfree1 : ∀ p ∈ (seg.vaddr + pieOff + seg.fileSize - 1) / 4096 ::
        rangeIncl ((seg.vaddr + pieOff + seg.fileSize - 1) / 4096 + 1)
          ((seg.vaddr + pieOff + seg.memSize - 1) / 4096), st.pt p = none := by
      intro p hp
      rw [← rangeIncl_cons hNSPE, mem_rangeIncl] at hp
      exact hunmapped p (le_trans (Nat.div_le_div_right (by omega)) hp.1) hp.2
    have hlen1 : (rangeIncl ((seg.vaddr + pieOff + seg.fileSize - 1) / 4096 + 1)
        ((seg.vaddr + pieOff + seg.memSize - 1) / 4096)).length ≤ alloc1.length := by
      rw [hrestlen]
      omega
    have hfnd1 : ((f0 :: alloc1).take
        ((rangeIncl ((seg.vaddr + pieOff + seg.fileSize - 1) / 4096 + 1)
          ((seg.vaddr + pieOff + seg.memSize - 1) / 4096)).length + 1)).Nodup := by
      simp only [List.take_succ_cons, hrestlen]
      exact hfnd
    obtain ⟨st1, hrun, hins, hkeep, hcopy, hzf0, hztail, hunch⟩ :=
      freshLoop_head_spec physStart (physStart + seg.fileSize - 1)
        ((physStart + seg.fileSize - 1) / 4096)
        ((seg.vaddr + pieOff + seg.fileSize - 1) / 4096)
        (rangeIncl ((seg.vaddr + pieOff + seg.fileSize - 1) / 4096 + 1)
          ((seg.vaddr + pieOff + seg.memSize - 1) / 4096))
        st f0 alloc1 hoc hnd2 hfree1 hlen1 hfnd1
    simp only [PS] at hcopy hzf0 hztail hunch
    have hfree2 : ∀ pf ∈ (rangeIncl ((seg.vaddr + pieOff) / 4096)
        ((seg.vaddr + pieOff + seg.fileSize - 1) / 4096 - 1)).zip
        (rangeIncl (physStart / 4096) ((physStart + seg.fileSize - 1) / 4096)),
        st1.pt pf.1 = none := by
      intro pf hpf
      obtain ⟨h1, _⟩ := List.of_mem_zip hpf
      rw [mem_rangeIncl] at h1
      rw [hkeep pf.1 ?_]
      · exact hunmapped pf.1 h1.1 (by omega)
      · intro hc
        rcases List.mem_cons.mp hc with hc | hc
        · omega
        · rw [mem_rangeIncl] at hc
          omega
    have hziplen : (rangeIncl ((seg.vaddr + pieOff) / 4096)
        ((seg.vaddr + pieOff + seg.fileSize - 1) / 4096 - 1)).length ≤
        (rangeIncl (physStart / 4096) ((physStart + seg.fileSize - 1) / 4096)).length := by
      rw [rangeIncl_length_eq, rangeIncl_length_eq]
      omega
    have hfstnodup : (((rangeIncl ((seg.vaddr + pieOff) / 4096)
        ((seg.vaddr + pieOff + seg.fileSize - 1) / 4096 - 1)).zip
        (rangeIncl (physStart / 4096)
          ((physStart + seg.fileSize - 1) / 4096))).map Prod.fst).Nodup := by
      rw [List.map_fst_zip _ _ hziplen]
      exact rangeIncl_nodup _ _
    obtain ⟨st2, hrun2, hmemeq, hins2, hkeep2⟩ :=
      mapPages_spec ((rangeIncl ((seg.vaddr + pieOff) / 4096)
          ((seg.vaddr + pieOff + seg.fileSize - 1) / 4096 - 1)).zip
        (rangeIncl (physStart / 4096) ((physStart + seg.fileSize - 1) / 4096)))
        st1 hfree2 hfstnodup
    refine ⟨st2, ?_, ?_, ?_, ?_⟩
    · rw [hrun]
      simp only [Option.some_bind]
      rw [hrun2]
      simp only [Option.map_some']
      rw [List.drop_succ_cons, hrestlen]
    · intro i hi
      unfold readVirt
      simp only [PS]
      by_cases hq : (seg.vaddr + pieOff + i) / 4096 <
          (seg.vaddr + pieOff + seg.fileSize - 1) / 4096
      · have hpage : ((seg.vaddr + pieOff + i) / 4096,
            physStart / 4096 +
              ((seg.vaddr + pieOff + i) / 4096 - (seg.vaddr + pieOff) / 4096)) ∈
            (rangeIncl ((seg.vaddr + pieOff) / 4096)
              ((seg.vaddr + pieOff + seg.fileSize - 1) / 4096 - 1)).zip
            (rangeIncl (physStart / 4096) ((physStart + seg.fileSize - 1) / 4096)) := by
          rw [mem_zip_rangeIncl]
          exact ⟨(seg.vaddr + pieOff + i) / 4096 - (seg.vaddr + pieOff) / 4096,
            by omega, rfl, by omega, by omega⟩
        have haddr : (physStart / 4096 +
            ((seg.vaddr + pieOff + i) / 4096 - (seg.vaddr + pieOff) / 4096)) * 4096 +
            (seg.vaddr + pieOff + i) % 4096 = physStart + i := by omega
        have hfresh : ∀ g ∈ (f0 :: alloc1).take
            ((rangeIncl ((seg.vaddr + pieOff + seg.fileSize - 1) / 4096 + 1)
              ((seg.vaddr + pieOff + seg.memSize - 1) / 4096)).length + 1),
            physStart + i < g * 4096 ∨ g * 4096 + 4096 ≤ physStart + i := by
          intro g hg
          simp only [List.take_succ_cons, hrestlen] at hg
          have hgd := hdisj g hg
          omega
        rw [hins2 _ _ hpage, Option.map_some', hmemeq, haddr, hunch _ hfresh]
      · have hqe : (seg.vaddr + pieOff + i) / 4096 =
            (seg.vaddr + pieOff + seg.fileSize - 1) / 4096 := by
          have hle : (seg.vaddr + pieOff + i) / 4096 ≤
              (seg.vaddr + pieOff + seg.fileSize - 1) / 4096 :=
            Nat.div_le_div_right (by omega)
          omega
        have hkeep2q : st2.pt ((seg.vaddr + pieOff + i) / 4096) =
            st1.pt ((seg.vaddr + pieOff + i) / 4096) := by
          apply hkeep2
          intro f hf
          obtain ⟨h1, _⟩ := List.of_mem_zip hf
          rw [mem_rangeIncl] at h1
          omega
        have hptq : st1.pt ((seg.vaddr + pieOff + i) / 4096) = some f0 := by
          rw [hqe]
          apply hins
          rw [List.zip_cons_cons]
          exact List.mem_cons_self ..
        rw [hkeep2q, hptq, Option.map_some', hmemeq]
        have hps1 : max physStart ((physStart + seg.fileSize - 1) / 4096 * 4096) ≤
            physStart + i := by omega
        have hc1 := hcopy (physStart + i) hps1 (by omega)
        rw [show f0 * 4096 +
            max physStart ((physStart + seg.fileSize - 1) / 4096 * 4096) % 4096 +
            (physStart + i -
              max physStart ((physStart + seg.fileSize - 1) / 4096 * 4096)) =
            f0 * 4096 + (seg.vaddr + pieOff + i) % 4096 from by omega] at hc1
        rw [hc1]
    · intro j hj1 hj2
      unfold readVirt
      simp only [PS]
      have hqge : (seg.vaddr + pieOff + seg.fileSize - 1) / 4096 ≤
          (seg.vaddr + pieOff + j) / 4096 :=
        Nat.div_le_div_right (by omega)
      have hqle : (seg.vaddr + pieOff + j) / 4096 ≤
          (seg.vaddr + pieOff + seg.memSize - 1) / 4096 :=
        Nat.div_le_div_right (by omega)
      have hkeep2q : st2.pt ((seg.vaddr + pieOff + j) / 4096) =
          st1.pt ((seg.vaddr + pieOff + j) / 4096) := by
        apply hkeep2
        intro f hf
        obtain ⟨h1, _⟩ := List.of_mem_zip hf
        rw [mem_rangeIncl] at h1
        omega
      by_cases hq0 : (seg.vaddr + pieOff + j) / 4096 =
          (seg.vaddr + pieOff + seg.fileSize - 1) / 4096
      · have hptq : st1.pt ((seg.vaddr + pieOff + j) / 4096) = some f0 := by
          rw [hq0]
          apply hins
          rw [List.zip_cons_cons]
          exact List.mem_cons_self ..
        rw [hkeep2q, hptq, Option.map_some', hmemeq]
        have hz := hzf0 (f0 * 4096 + (seg.vaddr + pieOff + j) % 4096)
          (by omega) (by omega)
        rw [hz]
      · have hrq : rangeIncl ((seg.vaddr + pieOff + seg.fileSize - 1) / 4096 + 1)
            ((seg.vaddr + pieOff + seg.memSize - 1) / 4096) =
            List.range' ((seg.vaddr + pieOff + seg.fileSize - 1) / 4096 + 1)
              ((seg.vaddr + pieOff + seg.memSize - 1) / 4096 -
                ((seg.vaddr + pieOff + seg.fileSize - 1) / 4096 + 1) + 1) := by
          unfold rangeIncl
          rw [if_neg (by omega)]
        have hmem1 : ((seg.vaddr + pieOff + j) / 4096,
            alloc1.getD ((seg.vaddr + pieOff + j) / 4096 -
              ((seg.vaddr + pieOff + seg.fileSize - 1) / 4096 + 1)) 0) ∈
            ((seg.vaddr + pieOff + seg.fileSize - 1) / 4096 ::
              rangeIncl ((seg.vaddr + pieOff + seg.fileSize - 1) / 4096 + 1)
                ((seg.vaddr + pieOff + seg.memSize - 1) / 4096)).zip (f0 :: alloc1) := by
          rw [List.zip_cons_cons]
          apply List.mem_cons_of_mem
          rw [hrq]
          have hzr := zip_range'_list_getD alloc1
            ((seg.vaddr + pieOff + seg.memSize - 1) / 4096 -
              ((seg.vaddr + pieOff + seg.fileSize - 1) / 4096 + 1) + 1)
            ((seg.vaddr + pieOff + seg.fileSize - 1) / 4096 + 1)
            ((seg.vaddr + pieOff + j) / 4096 -
              ((seg.vaddr + pieOff + seg.fileSize - 1) / 4096 + 1))
            (by omega) (by omega)
          rw [show (seg.vaddr + pieOff + seg.fileSize - 1) / 4096 + 1 +
              ((seg.vaddr + pieOff + j) / 4096 -
                ((seg.vaddr + pieOff + seg.fileSize - 1) / 4096 + 1)) =
              (seg.vaddr + pieOff + j) / 4096 from by omega] at hzr
          exact hzr
        have hptq := hins _ _ hmem1
        rw [hkeep2q, hptq, Option.map_some', hmemeq]
        have hgmem : alloc1.getD ((seg.vaddr + pieOff + j) / 4096 -
            ((seg.vaddr + pieOff + seg.fileSize - 1) / 4096 + 1)) 0 ∈
            alloc1.take (rangeIncl ((seg.vaddr + pieOff + seg.fileSize - 1) / 4096 + 1)
              ((seg.vaddr + pieOff + seg.memSize - 1) / 4096)).length := by
          rw [hrestlen]
          exact getD_mem_take alloc1 _ _ (by omega) (by omega)
        have hz := hztail (alloc1.getD ((seg.vaddr + pieOff + j) / 4096 -
            ((seg.vaddr + pieOff + seg.fileSize - 1) / 4096 + 1)) 0 * 4096 +
            (seg.vaddr + pieOff + j) % 4096)
          ⟨_, hgmem, by omega, by omega⟩
        rw [hz]
    · intro j hj1 hj2
      simp only [PS, List.take_succ_cons]
      have hqge : (seg.vaddr + pieOff + seg.fileSize - 1) / 4096 ≤
          (seg.vaddr + pieOff + j) / 4096 :=
        Nat.div_le_div_right (by omega)
      have hqle : (seg.vaddr + pieOff + j) / 4096 ≤
          (seg.vaddr + pieOff + seg.memSize - 1) / 4096 :=
        Nat.div_le_div_right (by omega)
      have hkeep2q : st2.pt ((seg.vaddr + pieOff + j) / 4096) =
          st1.pt ((seg.vaddr + pieOff + j) / 4096) := by
        apply hkeep2
        intro f hf
        obtain ⟨h1, _⟩ := List.of_mem_zip hf
        rw [mem_rangeIncl] at h1
        omega
      by_cases hq0 : (seg.vaddr + pieOff + j) / 4096 =
          (seg.vaddr + pieOff + seg.fileSize - 1) / 4096
      · refine ⟨f0, ?_, List.mem_cons_self .., hdisj f0 (List.mem_cons_self ..)⟩
        rw [hkeep2q, hq0]
        apply hins
        rw [List.zip_cons_cons]
        exact List.mem_cons_self ..
      · have hrq : rangeIncl ((seg.vaddr + pieOff + seg.fileSize - 1) / 4096 + 1)
            ((seg.vaddr + pieOff + seg.memSize - 1) / 4096) =
            List.range' ((seg.vaddr + pieOff + seg.fileSize - 1) / 4096 + 1)
              ((seg.vaddr + pieOff + seg.memSize - 1) / 4096 -
                ((seg.vaddr + pieOff + seg.fileSize - 1) / 4096 + 1) + 1) := by
          unfold rangeIncl
          rw [if_neg (by omega)]
        have hmem1 : ((seg.vaddr + pieOff + j) / 4096,
            alloc1.getD ((seg.vaddr + pieOff + j) / 4096 -
              ((seg.vaddr + pieOff + seg.fileSize - 1) / 4096 + 1)) 0) ∈
            ((seg.vaddr + pieOff + seg.fileSize - 1) / 4096 ::
              rangeIncl ((seg.vaddr + pieOff + seg.fileSize - 1) / 4096 + 1)
                ((seg.vaddr + pieOff + seg.memSize - 1) / 4096)).zip (f0 :: alloc1) := by
          rw [List.zip_cons_cons]
          apply List.mem_cons_of_mem
          rw [hrq]
          have hzr := zip_range'_list_getD alloc1
            ((seg.vaddr + pieOff + seg.memSize - 1) / 4096 -
              ((seg.vaddr + pieOff + seg.fileSize - 1) / 4096 + 1) + 1)
            ((seg.vaddr + pieOff + seg.fileSize - 1) / 4096 + 1)
            ((seg.vaddr + pieOff + j) / 4096 -
              ((seg.vaddr + pieOff + seg.fileSize - 1) / 4096 + 1))
            (by omega) (by omega)
          rw [show (seg.vaddr + pieOff + seg.fileSize - 1) / 4096 + 1 +
              ((seg.vaddr + pieOff + j) / 4096 -
                ((seg.vaddr + pieOff + seg.fileSize - 1) / 4096 + 1)) =
              (seg.vaddr + pieOff + j) / 4096 from by omega] at hzr
          exact hzr
        have hgmem : alloc1.getD ((seg.vaddr + pieOff + j) / 4096 -
            ((seg.vaddr + pieOff + seg.fileSize - 1) / 4096 + 1)) 0 ∈
            alloc1.take ((seg.vaddr + pieOff + seg.memSize - 1) / 4096 -
              (seg.vaddr + pieOff + seg.fileSize - 1) / 4096) := by
          exact getD_mem_take alloc1 _ _ (by omega) (by omega)
        refine ⟨alloc1.getD ((seg.vaddr + pieOff + j) / 4096 -
            ((seg.vaddr + pieOff + seg.fileSize - 1) / 4096 + 1)) 0, ?_,
          List.mem_cons_of_mem _ hgmem, hdisj _ (List.mem_cons_of_mem _ hgmem)⟩
        rw [hkeep2q]
        exact hins _ _ hmem1
  · have hfme : seg.fileSize = seg.memSize := by omega
    have hfc0 : freshCount seg pieOff = 0 := by
      unfold freshCount
      rw [if_neg hflt]
    rw [hfc0] at hlen hfnd hdisj ⊢
    unfold load_segment
    rw [if_neg hm0]
    dsimp only
    rw [hphys]
    simp only [Option.some_bind]
    rw [if_neg hflt]
    simp only [PS] at hcong hvlo hunmapped ⊢
    have hfree2 : ∀ pf ∈ (rangeIncl ((seg.vaddr + pieOff) / 4096)
        ((seg.vaddr + pieOff + seg.memSize - 1) / 4096)).zip
        (rangeIncl (physStart / 4096) ((physStart + seg.fileSize - 1) / 4096)),
        st.pt pf.1 = none := by
      intro pf hpf
      obtain ⟨h1, _⟩ := List.of_mem_zip hpf
      rw [mem_rangeIncl] at h1
      exact hunmapped pf.1 h1.1 h1.2
    have hziplen : (rangeIncl ((seg.vaddr + pieOff) / 4096)
        ((seg.vaddr + pieOff + seg.memSize - 1) / 4096)).length ≤
        (rangeIncl (physStart / 4096) ((physStart + seg.fileSize - 1) / 4096)).length := by
      rw [rangeIncl_length_eq, rangeIncl_length_eq]
      omega
    have hfstnodup : (((rangeIncl ((seg.vaddr + pieOff) / 4096)
        ((seg.vaddr + pieOff + seg.memSize - 1) / 4096)).zip
        (rangeIncl (physStart / 4096)
          ((physStart + seg.fileSize - 1) / 4096))).map Prod.fst).Nodup := by
      rw [List.map_fst_zip _ _ hziplen]
      exact rangeIncl_nodup _ _
    obtain ⟨st2, hrun2, hmemeq, hins2, hkeep2⟩ :=
      mapPages_spec ((rangeIncl ((seg.vaddr + pieOff) / 4096)
          ((seg.vaddr + pieOff + seg.memSize - 1) / 4096)).zip
        (rangeIncl (physStart / 4096) ((physStart + seg.fileSize - 1) / 4096)))
        st hfree2 hfstnodup
    refine ⟨st2, ?_, ?_, ?_, ?_⟩
    · rw [hrun2]
      simp only [Option.map_some', List.drop_zero]
    · intro i hi
      unfold readVirt
      simp only [PS]
      have hpage : ((seg.vaddr + pieOff + i) / 4096,
          physStart / 4096 +
            ((seg.vaddr + pieOff + i) / 4096 - (seg.vaddr + pieOff) / 4096)) ∈
          (rangeIncl ((seg.vaddr + pieOff) / 4096)
            ((seg.vaddr + pieOff + seg.memSize - 1) / 4096)).zip
          (rangeIncl (physStart / 4096) ((physStart + seg.fileSize - 1) / 4096)) := by
        rw [mem_zip_rangeIncl]
        exact ⟨(seg.vaddr + pieOff + i) / 4096 - (seg.vaddr + pieOff) / 4096,
          by omega, rfl, by omega, by omega⟩
      have haddr : (physStart / 4096 +
          ((seg.vaddr + pieOff + i) / 4096 - (seg.vaddr + pieOff) / 4096)) * 4096 +
          (seg.vaddr + pieOff + i) % 4096 = physStart + i := by omega
      rw [hins2 _ _ hpage, Option.map_some', hmemeq, haddr]
    · intro j hj1 hj2
      omega
    · intro j hj1 hj2
      omega

/-- C1 witness: a two-page segment (`file_size` one page, `mem_size` two)
at `0x100000`, backed by ELF bytes at physical `0x21000`, with fresh
frames 9 and 10 on the allocator. -/
theorem c1_load_segment_witness :
    ∃ st2, load_segment false 0x20000 ⟨0x100000, 0x1000, 4096, 8192⟩ 0
        { mem := fun a => a % 251, pt := fun _ => none } [9, 10] =
        some (st2, List.drop (freshCount ⟨0x100000, 0x1000, 4096, 8192⟩ 0) [9, 10]) ∧
      (∀ i, i < 4096 → readVirt st2 (0x100000 + 0 + i) = some ((0x21000 + i) % 251)) ∧
      (∀ j, 4096 ≤ j → j < 8192 → readVirt st2 (0x100000 + 0 + j) = some 0) ∧
      (∀ j, 4096 ≤ j → j < 8192 →
        ∃ g, st2.pt ((0x100000 + 0 + j) / PS) = some g ∧
          g ∈ List.take (freshCount ⟨0x100000, 0x1000, 4096, 8192⟩ 0) [9, 10] ∧
          (g < 0x21000 / PS ∨ (0x21000 + 4096 - 1) / PS < g)) :=
  c1_load_segment false 0x20000 ⟨0x100000, 0x1000, 4096, 8192⟩ 0
    { mem := fun a => a % 251, pt := fun _ => none } [9, 10] 0x21000 rfl
    (by decide) (by decide) (by decide) (by decide) (fun p _ _ => rfl)
    (by decide) (by decide) (by decide)

/-- C8: `load_segment` followed by `unload_segment` with the same mapper
leaves the page table with no entries on the segment's whole virtual page
range and untouched elsewhere, and hands the frame deallocator exactly the
fresh frames that `load_segment` took from the allocator (the file-backed
pages are unmapped without their frames being freed). -/
theorem c8_elf_round_trip (user : Bool) (elfBase : Nat) (seg : Seg) (pieOff : Nat)
    (st : Mach) (alloc : List Nat) (physStart : Nat)
    (hphys : (if user then translateAddr st.pt (elfBase + seg.off)
      else some (elfBase + seg.off)) = some physStart)
    (hfs : 1 ≤ seg.fileSize) (hfm : seg.fileSize ≤ seg.memSize)
    (hcong : (seg.vaddr + pieOff) % PS = physStart % PS)
    (hvlo : PS ≤ seg.vaddr + pieOff)
    (hunmapped : ∀ p, (seg.vaddr + pieOff) / PS ≤ p →
      p ≤ (seg.vaddr + pieOff + seg.memSize - 1) / PS → st.pt p = none)
    (hlen : freshCount seg pieOff ≤ alloc.length)
    (hfnd : (alloc.take (freshCount seg pieOff)).Nodup) :
    ∃ st2 st3, load_segment user elfBase seg pieOff st alloc =
        some (st2, alloc.drop (freshCount seg pieOff)) ∧
      unload_segment seg pieOff st2 =
        some (st3, alloc.take (freshCount seg pieOff)) ∧
      (∀ p, (seg.vaddr + pieOff) / PS ≤ p →
        p ≤ (seg.vaddr + pieOff + seg.memSize - 1) / PS → st3.pt p = none) ∧
      (∀ q, q < (seg.vaddr + pieOff) / PS ∨
          (seg.vaddr + pieOff + seg.memSize - 1) / PS < q →
        st3.pt q = st.pt q) := by
  have hm0 : ¬ seg.memSize = 0 := by omega
  by_cases hflt : seg.fileSize < seg.memSize
  · have hfc : freshCount seg pieOff =
        (seg.vaddr + pieOff + seg.memSize - 1) / PS -
          (seg.vaddr + pieOff + seg.fileSize - 1) / PS + 1 := by
      unfold freshCount
      rw [if_pos hflt]
    rw [hfc] at hlen hfnd
    rcases alloc with _ | ⟨f0, alloc1⟩
    · exfalso
      simp only [List.length_nil, PS] at hlen
      omega
    simp only [List.length_cons] at hlen
    simp only [List.take_succ_cons] at hfnd
    unfold load_segment
    rw [if_neg hm0]
    dsimp only
    rw [hphys]
    simp only [Option.some_bind]
    rw [if_pos hflt, hfc]
    simp only [PS] at hcong hvlo hunmapped hlen hfnd ⊢
    have hNSPE : (seg.vaddr + pieOff + seg.fileSize - 1) / 4096 ≤
        (seg.vaddr + pieOff + seg.memSize - 1) / 4096 :=
      Nat.div_le_div_right (by omega)
    rw [rangeIncl_cons hNSPE]
    have hrestlen : (rangeIncl ((seg.vaddr + pieOff + seg.fileSize - 1) / 4096 + 1)
        ((seg.vaddr + pieOff + seg.memSize - 1) / 4096)).length =
        (seg.vaddr + pieOff + seg.memSize - 1) / 4096 -
          (seg.vaddr + pieOff + seg.fileSize - 1) / 4096 := by
      rw [rangeIncl_length_eq]
      omega
    have hoc : max physStart ((physStart + seg.fileSize - 1) / 4096 * 4096) % 4096 +
        (physStart + seg.fileSize - 1 -
          max physStart ((physStart + seg.fileSize - 1) / 4096 * 4096) + 1) ≤ 4096 := by
      omega
    have hnd2 : ((seg.vaddr + pieOff + seg.fileSize - 1) / 4096 ::
        rangeIncl ((seg.vaddr + pieOff + seg.fileSize - 1) / 4096 + 1)
          ((seg.vaddr + pieOff + seg.memSize - 1) / 4096)).Nodup := by
      rw [← rangeIncl_cons hNSPE]
      exact rangeIncl_nodup _ _
    have hfree1 : ∀ p ∈ (seg.vaddr + pieOff + seg.fileSize - 1) / 4096 ::
        rangeIncl ((seg.vaddr + pieOff + seg.fileSize - 1) / 4096 + 1)
          ((seg.vaddr + pieOff + seg.memSize - 1) / 4096), st.pt p = none := by
      intro p hp
      rw [← rangeIncl_cons hNSPE, mem_rangeIncl] at hp
      exact hunmapped p (le_trans (Nat.div_le_div_right (by omega)) hp.1) hp.2
    have hlen1 : (rangeIncl ((seg.vaddr + pieOff + seg.fileSize - 1) / 4096 + 1)
        ((seg.vaddr + pieOff + seg.memSize - 1) / 4096)).length ≤ alloc1.length := by
      rw [hrestlen]
      omega
    have hfnd1 : ((f0 :: alloc1).take
        ((rangeIncl ((seg.vaddr + pieOff + seg.fileSize - 1) / 4096 + 1)
          ((seg.vaddr + pieOff + seg.memSize - 1) / 4096)).length + 1)).Nodup := by
      simp only [List.take_succ_cons, hrestlen]
      exact hfnd
    obtain ⟨st1, hrun, hins, hkeep, hcopy, hzf0, hztail, hunch⟩ :=
      freshLoop_head_spec physStart (physStart + seg.fileSize - 1)
        ((physStart + seg.fileSize - 1) / 4096)
        ((seg.vaddr + pieOff + seg.fileSize - 1) / 4096)
        (rangeIncl ((seg.vaddr + pieOff + seg.fileSize - 1) / 4096 + 1)
          ((seg.vaddr + pieOff + seg.memSize - 1) / 4096))
        st f0 alloc1 hoc hnd2 hfree1 hlen1 hfnd1
    have hfree2 : ∀ pf ∈ (rangeIncl ((seg.vaddr + pieOff) / 4096)
        ((seg.vaddr + pieOff + seg.fileSize - 1) / 4096 - 1)).zip
        (rangeIncl (physStart / 4096) ((physStart + seg.fileSize - 1) / 4096)),
        st1.pt pf.1 = none := by
      intro pf hpf
      obtain ⟨h1, _⟩ := List.of_mem_zip hpf
      rw [mem_rangeIncl] at h1
      rw [hkeep pf.1 ?_]
      · exact hunmapped pf.1 h1.1 (by omega)
      · intro hc
        rcases List.mem_cons.mp hc with hc | hc
        · omega
        · rw [mem_rangeIncl] at hc
          omega
    have hziplen : (rangeIncl ((seg.vaddr + pieOff) / 4096)
        ((seg.vaddr + pieOff + seg.fileSize - 1) / 4096 - 1)).length ≤
        (rangeIncl (physStart / 4096) ((physStart + seg.fileSize - 1) / 4096)).length := by
      rw [rangeIncl_length_eq, rangeIncl_length_eq]
      omega
    have hfstnodup : (((rangeIncl ((seg.vaddr + pieOff) / 4096)
        ((seg.vaddr + pieOff + seg.fileSize - 1) / 4096 - 1)).zip
        (rangeIncl (physStart / 4096)
          ((physStart + seg.fileSize - 1) / 4096))).map Prod.fst).Nodup := by
      rw [List.map_fst_zip _ _ hziplen]
      exact rangeIncl_nodup _ _
    obtain ⟨st2, hrun2, hmemeq, hins2, hkeep2⟩ :=
      mapPages_spec ((rangeIncl ((seg.vaddr + pieOff) / 4096)
          ((seg.vaddr + pieOff + seg.fileSize - 1) / 4096 - 1)).zip
        (rangeIncl (physStart / 4096) ((physStart + seg.fileSize - 1) / 4096)))
        st1 hfree2 hfstnodup
    have hFall : ∀ p ∈ (seg.vaddr + pieOff + seg.fileSize - 1) / 4096 ::
        rangeIncl ((seg.vaddr + pieOff + seg.fileSize - 1) / 4096 + 1)
          ((seg.vaddr + pieOff + seg.memSize - 1) / 4096),
        st2.pt p = some ((f0 :: alloc1).getD
          (p - (seg.vaddr + pieOff + seg.fileSize - 1) / 4096) 0) := by
      intro p hp
      have hkeep2p : st2.pt p = st1.pt p := by
        apply hkeep2
        intro f hf
        obtain ⟨h1, _⟩ := List.of_mem_zip hf
        rw [mem_rangeIncl] at h1
        rcases List.mem_cons.mp hp with hc | hc
        · omega
        · rw [mem_rangeIncl] at hc
          omega
      rw [hkeep2p]
      rcases List.mem_cons.mp hp with hc | hc
      · subst hc
        simp only [Nat.sub_self, List.getD_cons_zero]
        apply hins
        rw [List.zip_cons_cons]
        exact List.mem_cons_self ..
      · rw [mem_rangeIncl] at hc
        rw [show p - (seg.vaddr + pieOff + seg.fileSize - 1) / 4096 =
            (p - ((seg.vaddr + pieOff + seg.fileSize - 1) / 4096 + 1)) + 1 from by omega,
          List.getD_cons_succ]
        apply hins
        rw [List.zip_cons_cons]
        apply List.mem_cons_of_mem
        rw [show rangeIncl ((seg.vaddr + pieOff + seg.fileSize - 1) / 4096 + 1)
            ((seg.vaddr + pieOff + seg.memSize - 1) / 4096) =
            List.range' ((seg.vaddr + pieOff + seg.fileSize - 1) / 4096 + 1)
              ((seg.vaddr + pieOff + seg.memSize - 1) / 4096 -
                ((seg.vaddr + pieOff + seg.fileSize - 1) / 4096 + 1) + 1) from by
          unfold rangeIncl
          rw [if_neg (by omega)]]
        have hzr := zip_range'_list_getD alloc1
          ((seg.vaddr + pieOff + seg.memSize - 1) / 4096 -
            ((seg.vaddr + pieOff + seg.fileSize - 1) / 4096 + 1) + 1)
          ((seg.vaddr + pieOff + seg.fileSize - 1) / 4096 + 1)
          (p - ((seg.vaddr + pieOff + seg.fileSize - 1) / 4096 + 1))
          (by omega) (by omega)
        rw [show (seg.vaddr + pieOff + seg.fileSize - 1) / 4096 + 1 +
            (p - ((seg.vaddr + pieOff + seg.fileSize - 1) / 4096 + 1)) = p
          from by omega] at hzr
        exact hzr
    obtain ⟨st3a, hrun3, hmem3, hclear3, hkeep3⟩ :=
      unmapDealloc_spec (fun p => (f0 :: alloc1).getD
          (p - (seg.vaddr + pieOff + seg.fileSize - 1) / 4096) 0)
        ((seg.vaddr + pieOff + seg.fileSize - 1) / 4096 ::
          rangeIncl ((seg.vaddr + pieOff + seg.fileSize - 1) / 4096 + 1)
            ((seg.vaddr + pieOff + seg.memSize - 1) / 4096))
        st2 [] hnd2 hFall
    have hmapF : ((seg.vaddr + pieOff + seg.fileSize - 1) / 4096 ::
        rangeIncl ((seg.vaddr + pieOff + seg.fileSize - 1) / 4096 + 1)
          ((seg.vaddr + pieOff + seg.memSize - 1) / 4096)).map
        (fun p => (f0 :: alloc1).getD
          (p - (seg.vaddr + pieOff + seg.fileSize - 1) / 4096) 0) =
        (f0 :: alloc1).take ((seg.vaddr + pieOff + seg.memSize - 1) / 4096 -
          (seg.vaddr + pieOff + seg.fileSize - 1) / 4096 + 1) := by
      rw [← rangeIncl_cons hNSPE]
      rw [show rangeIncl ((seg.vaddr + pieOff + seg.fileSize - 1) / 4096)
          ((seg.vaddr + pieOff + seg.memSize - 1) / 4096) =
          List.range' ((seg.vaddr + pieOff + seg.fileSize - 1) / 4096)
            ((seg.vaddr + pieOff + seg.memSize - 1) / 4096 -
              (seg.vaddr + pieOff + seg.fileSize - 1) / 4096 + 1) from by
        unfold rangeIncl
        rw [if_neg (by omega)]]
      exact map_getD_range' (f0 :: alloc1) _ _ (by simp only [List.length_cons]; omega)
    have hfile : ∀ p ∈ rangeIncl ((seg.vaddr + pieOff) / 4096)
        ((seg.vaddr + pieOff + seg.fileSize - 1) / 4096 - 1),
        ∃ f, st3a.pt p = some f := by
      intro p hp
      rw [mem_rangeIncl] at hp
      have hk3 : st3a.pt p = st2.pt p := by
        apply hkeep3
        intro hc
        rcases List.mem_cons.mp hc with hc | hc
        · omega
        · rw [mem_rangeIncl] at hc
          omega
      rw [hk3]
      refine ⟨physStart / 4096 + (p - (seg.vaddr + pieOff) / 4096), ?_⟩
      apply hins2
      rw [mem_zip_rangeIncl]
      exact ⟨p - (seg.vaddr + pieOff) / 4096, by omega, rfl, by omega, by omega⟩
    obtain ⟨st3, hrun4, hmem4, hclear4, hkeep4⟩ :=
      unmapPages_spec (rangeIncl ((seg.vaddr + pieOff) / 4096)
        ((seg.vaddr + pieOff + seg.fileSize - 1) / 4096 - 1)) st3a
        (rangeIncl_nodup _ _) hfile
    refine ⟨st2, st3, ?_, ?_, ?_, ?_⟩
    · rw [hrun]
      simp only [Option.some_bind]
      rw [hrun2]
      simp only [Option.map_some']
      rw [List.drop_succ_cons, hrestlen]
    · unfold unload_segment
      rw [if_neg hm0]
      dsimp only
      rw [if_pos hflt]
      simp only [PS]
      rw [rangeIncl_cons hNSPE, hrun3]
      simp only [Option.some_bind]
      rw [hrun4]
      simp only [Option.map_some']
      rw [List.nil_append, hmapF]
    · intro p hp1 hp2
      by_cases hpf : p < (seg.vaddr + pieOff + seg.fileSize - 1) / 4096
      · exact hclear4 p (by rw [mem_rangeIncl]; omega)
      · rw [hkeep4 p ?_]
        · exact hclear3 p (by rw [← rangeIncl_cons hNSPE, mem_rangeIncl]; omega)
        · intro hc
          rw [mem_rangeIncl] at hc
          omega
    · intro q hq
      rw [hkeep4 q (by intro hc; rw [mem_rangeIncl] at hc; omega)]
      rw [hkeep3 q (by
        intro hc
        rw [← rangeIncl_cons hNSPE, mem_rangeIncl] at hc
        omega)]
      rw [hkeep2 q ?_]
      · exact hkeep q (by
          intro hc
          rw [← rangeIncl_cons hNSPE, mem_rangeIncl] at hc
          omega)
      · intro f hf
        obtain ⟨h1, _⟩ := List.of_mem_zip hf
        rw [mem_rangeIncl] at h1
        omega
  · have hfc0 : freshCount seg pieOff = 0 := by
      unfold freshCount
      rw [if_neg hflt]
    rw [hfc0] at hlen hfnd ⊢
    unfold load_segment
    rw [if_neg hm0]
    dsimp only
    rw [hphys]
    simp only [Option.some_bind]
    rw [if_neg hflt]
    simp only [PS] at hcong hvlo hunmapped ⊢
    have hfree2 : ∀ pf ∈ (rangeIncl ((seg.vaddr + pieOff) / 4096)
        ((seg.vaddr + pieOff + seg.memSize - 1) / 4096)).zip
        (rangeIncl (physStart / 4096) ((physStart + seg.fileSize - 1) / 4096)),
        st.pt pf.1 = none := by
      intro pf hpf
      obtain ⟨h1, _⟩ := List.of_mem_zip hpf
      rw [mem_rangeIncl] at h1
      exact hunmapped pf.1 h1.1 h1.2
    have hziplen : (rangeIncl ((seg.vaddr + pieOff) / 4096)
        ((seg.vaddr + pieOff + seg.memSize - 1) / 4096)).length ≤
        (rangeIncl (physStart / 4096) ((physStart + seg.fileSize - 1) / 4096)).length := by
      rw [rangeIncl_length_eq, rangeIncl_length_eq]
      omega
    have hfstnodup : (((rangeIncl ((seg.vaddr + pieOff) / 4096)
        ((seg.vaddr + pieOff + seg.memSize - 1) / 4096)).zip
        (rangeIncl (physStart / 4096)
          ((physStart + seg.fileSize - 1) / 4096))).map Prod.fst).Nodup := by
      rw [List.map_fst_zip _ _ hziplen]
      exact rangeIncl_nodup _ _
    obtain ⟨st2, hrun2, hmemeq, hins2, hkeep2⟩ :=
      mapPages_spec ((rangeIncl ((seg.vaddr + pieOff) / 4096)
          ((seg.vaddr + pieOff + seg.memSize - 1) / 4096)).zip
        (rangeIncl (physStart / 4096) ((physStart + seg.fileSize - 1) / 4096)))
        st hfree2 hfstnodup
    have hfile : ∀ p ∈ rangeIncl ((seg.vaddr + pieOff) / 4096)
        ((seg.vaddr + pieOff + seg.memSize - 1) / 4096),
        ∃ f, st2.pt p = some f := by
      intro p hp
      rw [mem_rangeIncl] at hp
      refine ⟨physStart / 4096 + (p - (seg.vaddr + pieOff) / 4096), ?_⟩
      apply hins2
      rw [mem_zip_rangeIncl]
      exact ⟨p - (seg.vaddr + pieOff) / 4096, by omega, rfl, by omega, by omega⟩
    obtain ⟨st3, hrun4, hmem4, hclear4, hkeep4⟩ :=
      unmapPages_spec (rangeIncl ((seg.vaddr + pieOff) / 4096)
        ((seg.vaddr + pieOff + seg.memSize - 1) / 4096)) st2
        (rangeIncl_nodup _ _) hfile
    refine ⟨st2, st3, ?_, ?_, ?_, ?_⟩
    · rw [hrun2]
      simp only [Option.map_some', List.drop_zero]
    · unfold unload_segment
      rw [if_neg hm0]
      dsimp only
      rw [if_neg hflt]
      simp only [PS]
      rw [hrun4]
      simp only [Option.map_some', List.take_zero]
    · intro p hp1 hp2
      exact hclear4 p (by rw [mem_rangeIncl]; omega)
    · intro q hq
      rw [hkeep4 q (by intro hc; rw [mem_rangeIncl] at hc; omega)]
      apply hkeep2
      intro f hf
      obtain ⟨h1, _⟩ := List.of_mem_zip hf
      rw [mem_rangeIncl] at h1
      omega

/-- C8 witness: the round trip on the two-page segment of the C1 scenario
returns frames 9 and 10 to the deallocator and clears its pages. -/
theorem c8_elf_round_trip_witness :
    ∃ st2 st3, load_segment false 0x20000 ⟨0x100000, 0x1000, 4096, 8192⟩ 0
        { mem := fun a => a % 251, pt := fun _ => none } [9, 10] =
        some (st2, List.drop (freshCount ⟨0x100000, 0x1000, 4096, 8192⟩ 0) [9, 10]) ∧
      unload_segment ⟨0x100000, 0x1000, 4096, 8192⟩ 0 st2 =
        some (st3, List.take (freshCount ⟨0x100000, 0x1000, 4096, 8192⟩ 0) [9, 10]) ∧
      (∀ p, (0x100000 + 0) / PS ≤ p → p ≤ (0x100000 + 0 + 8192 - 1) / PS →
        st3.pt p = none) ∧
      (∀ q, q < (0x100000 + 0) / PS ∨ (0x100000 + 0 + 8192 - 1) / PS < q →
        st3.pt q = ((fun _ => none : Nat → Option Nat) q)) :=
  c8_elf_round_trip false 0x20000 ⟨0x100000, 0x1000, 4096, 8192⟩ 0
    { mem := fun a => a % 251, pt := fun _ => none } [9, 10] 0x21000 rfl
    (by decide) (by decide) (by decide) (by decide) (fun p _ _ => rfl)
    (by decide) (by decide)

end Angstros
